import Mathlib

/-!
Verification of the Cuevana-Scraper repository core
(`src/utils.py`, `src/addon.py`, `src/cuevana_scraper.py`).

Strings are modelled as Lean `String`/`List Char`; Python dicts used as
caches are modelled as association lists (`List (key × value)`) where a
write is a cons (a later binding shadows an earlier one, which matches
dict-update semantics under `List.lookup`); similarity scores are modelled
as exact rationals `ℚ` (Python's `2.0 * matches / length` is an exact
binary operation on the values arising here, and all claim statements are
about the comparison structure, not rounding).
-/

/-! ## Normalizer: `normalize_text` (src/src/utils.py lines 76-93)

`normalize_text` does `unidecode(text).lower()` and then
`re.sub(r'\s+', ' ', text).strip()`.  The regexp substitution followed by
`strip` is exactly: split the text into maximal runs of non-whitespace
characters and re-join them with single spaces; `collapse_ws` below
computes precisely that. -/

/-- Python's `\s` whitespace class on the ASCII range (space, tab, newline,
carriage return, vertical tab, form feed). -/
def pySpace (c : Char) : Bool :=
  c = ' ' || c = '\t' || c = '\n' || c = '\r' || c = '\x0b' || c = '\x0c'

/-- Transliteration table of the `unidecode` dependency (not part of this
repository), restricted to the Latin accented letters relevant to the
scraped Spanish-language catalog; `unidecode` maps each of these to the
plain ASCII letter of the same case.  Characters outside the table are
left unchanged by `unidecodeChar`. -/
def uniTable : List (Char × Char) :=
  [('á', 'a'), ('é', 'e'), ('í', 'i'), ('ó', 'o'), ('ú', 'u'), ('ü', 'u'), ('ñ', 'n'),
   ('Á', 'A'), ('É', 'E'), ('Í', 'I'), ('Ó', 'O'), ('Ú', 'U'), ('Ü', 'U'), ('Ñ', 'N'),
   ('à', 'a'), ('è', 'e'), ('ì', 'i'), ('ò', 'o'), ('ù', 'u'),
   ('â', 'a'), ('ê', 'e'), ('î', 'i'), ('ô', 'o'), ('û', 'u'),
   ('ä', 'a'), ('ë', 'e'), ('ï', 'i'), ('ö', 'o'), ('ç', 'c'),
   ('À', 'A'), ('È', 'E'), ('Ì', 'I'), ('Ò', 'O'), ('Ù', 'U'), ('Ç', 'C')]

/-- Per-character model of `unidecode`. -/
def unidecodeChar (c : Char) : Char := (uniTable.lookup c).getD c

/-- Table for `str.lower` on the ASCII uppercase letters (after the
`unidecode` pass every character this code cares about is ASCII). -/
def lowTable : List (Char × Char) :=
  [('A', 'a'), ('B', 'b'), ('C', 'c'), ('D', 'd'), ('E', 'e'), ('F', 'f'),
   ('G', 'g'), ('H', 'h'), ('I', 'i'), ('J', 'j'), ('K', 'k'), ('L', 'l'),
   ('M', 'm'), ('N', 'n'), ('O', 'o'), ('P', 'p'), ('Q', 'q'), ('R', 'r'),
   ('S', 's'), ('T', 't'), ('U', 'u'), ('V', 'v'), ('W', 'w'), ('X', 'x'),
   ('Y', 'y'), ('Z', 'z')]

/-- Per-character model of `str.lower`. -/
def pyLowerChar (c : Char) : Char := (lowTable.lookup c).getD c

/-- The per-character effect of `unidecode(text).lower()`. -/
def normChar (c : Char) : Char := pyLowerChar (unidecodeChar c)

/-- Accumulator loop computing the maximal runs of non-whitespace
characters of a character list, in order (`cur` is the run currently being
assembled). -/
def chunksAux : List Char → List Char → List (List Char)
  | cur, [] => if cur = [] then [] else [cur]
  | cur, c :: cs =>
    if pySpace c then
      if cur = [] then chunksAux [] cs else cur :: chunksAux [] cs
    else
      chunksAux (cur ++ [c]) cs

/-- Joins runs with single spaces (no leading or trailing space). -/
def joinSp : List (List Char) → List Char
  | [] => []
  | [cs] => cs
  | cs :: css => cs ++ ' ' :: joinSp css

/-- Model of `re.sub(r'\s+', ' ', text).strip()`: maximal non-whitespace
runs re-joined by single spaces. -/
def collapse_ws (l : List Char) : List Char :=
  joinSp (chunksAux [] l)

/-- Model of `normalize_text` (src/src/utils.py lines 76-93): empty input
is returned unchanged by the `if not text` guard; otherwise the text is
transliterated, lowercased, and whitespace-collapsed. -/
def normalize_text (s : String) : String :=
  if s = "" then "" else String.mk (collapse_ws (s.data.map normChar))

/-- Python's `normalize_text` also accepts `None` (the `if not text` guard
treats it like the empty string); modelled by an `Option` wrapper. -/
def normalize_text_opt : Option String → String
  | none => ""
  | some s => normalize_text s

/-! ### Normalizer lemmas -/

theorem mem_of_lookup_some {l : List (Char × Char)} {k v : Char}
    (h : l.lookup k = some v) : (k, v) ∈ l := by
  induction l with
  | nil => simp at h
  | cons p ps ih =>
    obtain ⟨a, b⟩ := p
    rw [List.lookup_cons] at h
    by_cases hk : k = a
    · subst hk
      simp only [beq_self_eq_true] at h
      cases h
      exact List.mem_cons_self _ _
    · have hne : (k == a) = false := by simp [hk]
      rw [hne] at h
      exact List.mem_cons_of_mem _ (ih h)

set_option maxHeartbeats 1600000 in
theorem normChar_idem (c : Char) : normChar (normChar c) = normChar c := by
  have hF1 : ∀ p ∈ uniTable, normChar (pyLowerChar p.2) = pyLowerChar p.2 := by decide
  have hF2 : ∀ p ∈ lowTable, normChar p.2 = p.2 := by decide
  rcases hu : uniTable.lookup c with _ | u
  · have huc : unidecodeChar c = c := by simp [unidecodeChar, hu]
    rcases hl : lowTable.lookup c with _ | v
    · have hlc : pyLowerChar c = c := by simp [pyLowerChar, hl]
      have hn : normChar c = c := by rw [normChar, huc, hlc]
      rw [hn, hn]
    · have hlc : pyLowerChar c = v := by simp [pyLowerChar, hl]
      have hn : normChar c = v := by rw [normChar, huc, hlc]
      rw [hn]
      exact hF2 _ (mem_of_lookup_some hl)
  · have huc : unidecodeChar c = u := by simp [unidecodeChar, hu]
    have hn : normChar c = pyLowerChar u := by rw [normChar, huc]
    rw [hn]
    exact hF1 _ (mem_of_lookup_some hu)

theorem normChar_space : normChar ' ' = ' ' := by decide

theorem chunksAux_append (xs : List Char) (hxs : ∀ c ∈ xs, pySpace c = false) :
    ∀ cur rest, chunksAux cur (xs ++ rest) = chunksAux (cur ++ xs) rest := by
  induction xs with
  | nil => intro cur rest; simp
  | cons c cs ih =>
    intro cur rest
    have hc : pySpace c = false := hxs c (List.mem_cons_self c cs)
    have hcs : ∀ d ∈ cs, pySpace d = false := fun d hd => hxs d (List.mem_cons_of_mem c hd)
    simp only [List.cons_append, chunksAux, hc, Bool.false_eq_true, if_false]
    have h2 := ih hcs (cur ++ [c]) rest
    have h3 : (cur ++ [c]) ++ cs = cur ++ c :: cs := by simp
    rw [h3] at h2
    exact h2

theorem chunksAux_space (cur : List Char) (rest : List Char) :
    chunksAux cur (' ' :: rest) =
      if cur = [] then chunksAux [] rest else cur :: chunksAux [] rest := by
  simp [chunksAux, pySpace]

/-- Every chunk produced by the run-splitting loop is non-empty and free of
whitespace characters. -/
theorem chunksAux_wf (l : List Char) :
    ∀ cur, (∀ c ∈ cur, pySpace c = false) →
      ∀ ch ∈ chunksAux cur l, ch ≠ [] ∧ ∀ c ∈ ch, pySpace c = false := by
  induction l with
  | nil =>
    intro cur hcur ch hch
    by_cases h : cur = [] <;> simp [chunksAux, h] at hch
    subst hch
    exact ⟨h, hcur⟩
  | cons c cs ih =>
    intro cur hcur ch hch
    by_cases hc : pySpace c
    · simp only [chunksAux, hc, if_true] at hch
      by_cases h : cur = []
      · rw [if_pos h] at hch
        exact ih [] (by simp) ch hch
      · rw [if_neg h] at hch
        rcases List.mem_cons.1 hch with h1 | h1
        · subst h1; exact ⟨h, hcur⟩
        · exact ih [] (by simp) ch h1
    · have hc' : pySpace c = false := by simpa using hc
      simp only [chunksAux, hc', Bool.false_eq_true, if_false] at hch
      refine ih (cur ++ [c]) ?_ ch hch
      intro d hd
      rcases List.mem_append.1 hd with h1 | h1
      · exact hcur d h1
      · simp at h1; subst h1; exact hc'

/-- Characters of chunks come from the accumulator or the input list. -/
theorem chunksAux_subset (l : List Char) :
    ∀ cur ch c', ch ∈ chunksAux cur l → c' ∈ ch → c' ∈ cur ∨ c' ∈ l := by
  induction l with
  | nil =>
    intro cur ch c' hch hc'
    by_cases h : cur = [] <;> simp [chunksAux, h] at hch
    subst hch; exact Or.inl hc'
  | cons c cs ih =>
    intro cur ch c' hch hc'
    by_cases hc : pySpace c
    · simp only [chunksAux, hc, if_true] at hch
      by_cases h : cur = []
      · rw [if_pos h] at hch
        rcases ih [] ch c' hch hc' with h1 | h1
        · simp at h1
        · exact Or.inr (List.mem_cons_of_mem c h1)
      · rw [if_neg h] at hch
        rcases List.mem_cons.1 hch with h1 | h1
        · subst h1; exact Or.inl hc'
        · rcases ih [] ch c' h1 hc' with h2 | h2
          · simp at h2
          · exact Or.inr (List.mem_cons_of_mem c h2)
    · have hc'2 : pySpace c = false := by simpa using hc
      simp only [chunksAux, hc'2, Bool.false_eq_true, if_false] at hch
      rcases ih (cur ++ [c]) ch c' hch hc' with h1 | h1
      · rcases List.mem_append.1 h1 with h2 | h2
        · exact Or.inl h2
        · simp at h2; subst h2; exact Or.inr (List.mem_cons_self _ _)
      · exact Or.inr (List.mem_cons_of_mem c h1)

/-- Re-splitting a space-joined list of well-formed runs recovers the runs. -/
theorem chunksAux_joinSp (css : List (List Char))
    (h : ∀ cs ∈ css, cs ≠ [] ∧ ∀ c ∈ cs, pySpace c = false) :
    chunksAux [] (joinSp css) = css := by
  induction css with
  | nil => simp [joinSp, chunksAux]
  | cons cs css' ih =>
    have hcs := h cs (List.mem_cons_self cs css')
    have hcss' : ∀ cs' ∈ css', cs' ≠ [] ∧ ∀ c ∈ cs', pySpace c = false :=
      fun cs' h' => h cs' (List.mem_cons_of_mem cs h')
    cases css' with
    | nil =>
      show chunksAux [] (joinSp [cs]) = [cs]
      have : joinSp [cs] = cs ++ [] := by simp [joinSp]
      rw [this, chunksAux_append cs hcs.2 [] []]
      simp [chunksAux, hcs.1]
    | cons cs2 css2 =>
      have hjoin : joinSp (cs :: cs2 :: css2) = cs ++ ' ' :: joinSp (cs2 :: css2) := by
        simp [joinSp]
      rw [hjoin, chunksAux_append cs hcs.2 [] (' ' :: joinSp (cs2 :: css2))]
      simp only [List.nil_append]
      rw [chunksAux_space cs (joinSp (cs2 :: css2)), if_neg hcs.1]
      rw [ih hcss']

theorem mem_joinSp (css : List (List Char)) (c : Char) (hc : c ∈ joinSp css) :
    c = ' ' ∨ ∃ cs ∈ css, c ∈ cs := by
  induction css with
  | nil => simp [joinSp] at hc
  | cons cs css' ih =>
    cases css' with
    | nil =>
      simp only [joinSp] at hc
      exact Or.inr ⟨cs, List.mem_cons_self cs [], hc⟩
    | cons cs2 css2 =>
      have : joinSp (cs :: cs2 :: css2) = cs ++ ' ' :: joinSp (cs2 :: css2) := by simp [joinSp]
      rw [this] at hc
      rcases List.mem_append.1 hc with h1 | h1
      · exact Or.inr ⟨cs, List.mem_cons_self cs _, h1⟩
      · rcases List.mem_cons.1 h1 with h2 | h2
        · exact Or.inl h2
        · rcases ih h2 with h3 | ⟨cs3, h4, h5⟩
          · exact Or.inl h3
          · exact Or.inr ⟨cs3, List.mem_cons_of_mem cs h4, h5⟩

theorem map_eq_self_of_fix {f : Char → Char} {l : List Char}
    (h : ∀ c ∈ l, f c = c) : l.map f = l := by
  induction l with
  | nil => rfl
  | cons c cs ih =>
    simp only [List.map_cons]
    rw [h c (List.mem_cons_self c cs), ih fun d hd => h d (List.mem_cons_of_mem c hd)]

/-- C8: `normalize_text` is idempotent; empty and null input yield the
empty string; case/accent variants such as "Canción" and "cancion"
normalize to the same result. -/
theorem normalize_idempotent_spec :
    (∀ s : String, normalize_text (normalize_text s) = normalize_text s)
    ∧ normalize_text "" = ""
    ∧ normalize_text_opt none = ""
    ∧ normalize_text "Canción" = normalize_text "cancion" := by
  refine ⟨?_, rfl, rfl, by decide⟩
  intro s
  by_cases hs : s = ""
  · subst hs; rfl
  · have hr : normalize_text s = String.mk (collapse_ws (s.data.map normChar)) := by
      rw [normalize_text, if_neg hs]
    by_cases hre : normalize_text s = ""
    · rw [hre]; rfl
    · rw [normalize_text, if_neg hre]
      have hrdata : (normalize_text s).data = joinSp (chunksAux [] (s.data.map normChar)) := by
        rw [hr]; rfl
      have hwf : ∀ ch ∈ chunksAux [] (s.data.map normChar),
          ch ≠ [] ∧ ∀ c ∈ ch, pySpace c = false :=
        chunksAux_wf (s.data.map normChar) [] (by simp)
      have hmap : (normalize_text s).data.map normChar = (normalize_text s).data := by
        apply map_eq_self_of_fix
        intro c hc
        rw [hrdata] at hc
        rcases mem_joinSp _ c hc with h1 | ⟨cs, h2, h3⟩
        · subst h1; exact normChar_space
        · have : c ∈ ([] : List Char) ∨ c ∈ s.data.map normChar :=
            chunksAux_subset (s.data.map normChar) [] cs c h2 h3
          rcases this with h4 | h4
          · simp at h4
          · rcases List.mem_map.1 h4 with ⟨a, _, ha⟩
            rw [← ha]; exact normChar_idem a
      rw [hmap]
      have hsplit : chunksAux [] (normalize_text s).data
          = chunksAux [] (s.data.map normChar) := by
        rw [hrdata]; exact chunksAux_joinSp _ hwf
      show String.mk (collapse_ws (normalize_text s).data) = normalize_text s
      rw [collapse_ws, hsplit, ← hrdata]

/-! ## Edit distance: `levenshtein_distance` (src/src/utils.py lines 33-73)

The Python function returns early with the raw (unnormalized) length when
either argument is falsy, and otherwise fills the standard dynamic-program
table over the two normalized strings; `dist[i][j]` memoizes exactly the
recurrence `levRec` below (row 0 and column 0 hold the indices, interior
cells take the minimum of deletion, insertion and substitution). -/

def levRec : List Char → List Char → Nat
  | [], ys => ys.length
  | x :: xs, [] => (x :: xs).length
  | x :: xs, y :: ys =>
    min (levRec xs (y :: ys) + 1)
      (min (levRec (x :: xs) ys + 1)
        (levRec xs ys + (if x = y then 0 else 1)))

/-- Model of `levenshtein_distance`: note that the two `if not str...`
early returns fire before normalization and measure the raw argument. -/
def levenshtein_distance (str1 str2 : String) : Nat :=
  if str1 = "" then str2.length
  else if str2 = "" then str1.length
  else levRec (normalize_text str1).data (normalize_text str2).data

/-- Edit scripts: `Ed xs ys n` holds when `ys` is obtained from `xs` by an
alignment of cost `n` made of copies (cost 0), substitutions, deletions
and insertions (cost 1 each). -/
inductive Ed : List Char → List Char → Nat → Prop
  | nil : Ed [] [] 0
  | copy (c : Char) {xs ys : List Char} {n : Nat} : Ed xs ys n → Ed (c :: xs) (c :: ys) n
  | sub (c d : Char) {xs ys : List Char} {n : Nat} : Ed xs ys n → Ed (c :: xs) (d :: ys) (n + 1)
  | del (c : Char) {xs ys : List Char} {n : Nat} : Ed xs ys n → Ed (c :: xs) ys (n + 1)
  | ins (d : Char) {xs ys : List Char} {n : Nat} : Ed xs ys n → Ed xs (d :: ys) (n + 1)

theorem ed_del_all (xs : List Char) : Ed xs [] xs.length := by
  induction xs with
  | nil => exact Ed.nil
  | cons a as ih => exact Ed.del a ih

theorem ed_ins_all (ys : List Char) : Ed [] ys ys.length := by
  induction ys with
  | nil => exact Ed.nil
  | cons b bs ih => exact Ed.ins b ih

theorem ed_of_levRec (xs ys : List Char) : Ed xs ys (levRec xs ys) := by
  induction xs, ys using levRec.induct with
  | case1 ys =>
    rw [levRec]
    exact ed_ins_all ys
  | case2 x xs =>
    rw [levRec]
    exact ed_del_all (x :: xs)
  | case3 x xs y ys ih1 ih2 ih3 =>
    rw [levRec]
    rcases Nat.lt_trichotomy (levRec xs (y :: ys) + 1)
        (min (levRec (x :: xs) ys + 1) (levRec xs ys + (if x = y then 0 else 1))) with h | h | h
    · rw [min_eq_left (le_of_lt h)]
      exact Ed.del x ih1
    · rw [min_eq_left (le_of_eq h)]
      exact Ed.del x ih1
    · rw [min_eq_right (le_of_lt h)]
      rcases Nat.lt_trichotomy (levRec (x :: xs) ys + 1)
          (levRec xs ys + (if x = y then 0 else 1)) with h2 | h2 | h2
      · rw [min_eq_left (le_of_lt h2)]
        exact Ed.ins y ih2
      · rw [min_eq_left (le_of_eq h2)]
        exact Ed.ins y ih2
      · rw [min_eq_right (le_of_lt h2)]
        by_cases hxy : x = y
        · subst hxy
          rw [if_pos rfl]
          exact Ed.copy x ih3
        · rw [if_neg hxy]
          exact Ed.sub x y ih3

theorem levRec_nil_right (xs : List Char) : levRec xs [] = xs.length := by
  cases xs <;> rw [levRec]

theorem levRec_le_del (x : Char) (xs ys : List Char) :
    levRec (x :: xs) ys ≤ levRec xs ys + 1 := by
  cases ys with
  | nil => rw [levRec_nil_right, levRec_nil_right]; simp
  | cons y ys => rw [levRec]; exact min_le_left _ _

theorem levRec_le_ins (y : Char) (xs ys : List Char) :
    levRec xs (y :: ys) ≤ levRec xs ys + 1 := by
  cases xs with
  | nil => rw [levRec, levRec]; simp
  | cons x xs =>
    rw [levRec]
    exact le_trans (min_le_right _ _) (min_le_left _ _)

theorem levRec_le_subst (x y : Char) (xs ys : List Char) :
    levRec (x :: xs) (y :: ys) ≤ levRec xs ys + (if x = y then 0 else 1) := by
  rw [levRec]
  exact le_trans (min_le_right _ _) (min_le_right _ _)

theorem levRec_le_of_ed {xs ys : List Char} {n : Nat} (h : Ed xs ys n) :
    levRec xs ys ≤ n := by
  induction h with
  | nil => rw [levRec]; simp
  | copy c h ih =>
    refine le_trans (levRec_le_subst c c _ _) ?_
    rw [if_pos rfl]
    omega
  | sub c d h ih =>
    refine le_trans (levRec_le_subst c d _ _) ?_
    by_cases hcd : c = d
    · rw [if_pos hcd]; omega
    · rw [if_neg hcd]; omega
  | del c h ih =>
    refine le_trans (levRec_le_del c _ _) ?_
    omega
  | ins d h ih =>
    refine le_trans (levRec_le_ins d _ _) ?_
    omega

/-- Edit scripts compose: an alignment of cost `m` from `A` to `B` and one
of cost `n` from `B` to `C` yield one from `A` to `C` of cost at most
`m + n`. -/
theorem ed_comp (N : Nat) : ∀ (A B C : List Char) (m n : Nat),
    A.length + B.length + C.length ≤ N →
    Ed A B m → Ed B C n → ∃ k, k ≤ m + n ∧ Ed A C k := by
  induction N with
  | zero =>
    intro A B C m n hlen d1 d2
    have hA : A = [] := by cases A <;> simp_all
    have hB : B = [] := by cases B <;> simp_all
    have hC : C = [] := by cases C <;> simp_all
    subst hA; subst hB; subst hC
    cases d1
    cases d2
    exact ⟨0, by omega, Ed.nil⟩
  | succ N ih =>
    intro A B C m n hlen d1 d2
    cases d2 with
    | nil =>
      exact ⟨m, by omega, d1⟩
    | ins d d2' =>
      obtain ⟨k, hk, ed⟩ := ih _ _ _ _ _ (by simp at hlen ⊢; omega) d1 d2'
      exact ⟨k + 1, by omega, Ed.ins d ed⟩
    | copy b d2' =>
      cases d1 with
      | copy _ d1'' =>
        obtain ⟨k, hk, ed⟩ := ih _ _ _ _ _ (by simp at hlen ⊢; omega) d1'' d2'
        exact ⟨k, by omega, Ed.copy b ed⟩
      | sub a _ d1'' =>
        obtain ⟨k, hk, ed⟩ := ih _ _ _ _ _ (by simp at hlen ⊢; omega) d1'' d2'
        exact ⟨k + 1, by omega, Ed.sub a b ed⟩
      | del a d1'' =>
        obtain ⟨k, hk, ed⟩ :=
          ih _ _ _ _ _ (by simp at hlen ⊢; omega) d1'' (Ed.copy b d2')
        exact ⟨k + 1, by omega, Ed.del a ed⟩
      | ins _ d1'' =>
        obtain ⟨k, hk, ed⟩ := ih _ _ _ _ _ (by simp at hlen ⊢; omega) d1'' d2'
        exact ⟨k + 1, by omega, Ed.ins b ed⟩
    | sub b d d2' =>
      cases d1 with
      | copy _ d1'' =>
        obtain ⟨k, hk, ed⟩ := ih _ _ _ _ _ (by simp at hlen ⊢; omega) d1'' d2'
        exact ⟨k + 1, by omega, Ed.sub b d ed⟩
      | sub a _ d1'' =>
        obtain ⟨k, hk, ed⟩ := ih _ _ _ _ _ (by simp at hlen ⊢; omega) d1'' d2'
        exact ⟨k + 1, by omega, Ed.sub a d ed⟩
      | del a d1'' =>
        obtain ⟨k, hk, ed⟩ :=
          ih _ _ _ _ _ (by simp at hlen ⊢; omega) d1'' (Ed.sub b d d2')
        exact ⟨k + 1, by omega, Ed.del a ed⟩
      | ins _ d1'' =>
        obtain ⟨k, hk, ed⟩ := ih _ _ _ _ _ (by simp at hlen ⊢; omega) d1'' d2'
        exact ⟨k + 1, by omega, Ed.ins d ed⟩
    | del b d2' =>
      cases d1 with
      | copy _ d1'' =>
        obtain ⟨k, hk, ed⟩ := ih _ _ _ _ _ (by simp at hlen ⊢; omega) d1'' d2'
        exact ⟨k + 1, by omega, Ed.del b ed⟩
      | sub a _ d1'' =>
        obtain ⟨k, hk, ed⟩ := ih _ _ _ _ _ (by simp at hlen ⊢; omega) d1'' d2'
        exact ⟨k + 1, by omega, Ed.del a ed⟩
      | del a d1'' =>
        obtain ⟨k, hk, ed⟩ :=
          ih _ _ _ _ _ (by simp at hlen ⊢; omega) d1'' (Ed.del b d2')
        exact ⟨k + 1, by omega, Ed.del a ed⟩
      | ins _ d1'' =>
        obtain ⟨k, hk, ed⟩ := ih _ _ _ _ _ (by simp at hlen ⊢; omega) d1'' d2'
        exact ⟨k, by omega, ed⟩

theorem levRec_triangle (A B C : List Char) :
    levRec A C ≤ levRec A B + levRec B C := by
  obtain ⟨k, hk, ed⟩ := ed_comp (A.length + B.length + C.length) A B C _ _ le_rfl
    (ed_of_levRec A B) (ed_of_levRec B C)
  exact le_trans (levRec_le_of_ed ed) hk

theorem levRec_self (A : List Char) : levRec A A = 0 := by
  induction A with
  | nil => rw [levRec]; rfl
  | cons x xs ih =>
    have h := levRec_le_subst x x xs xs
    rw [if_pos rfl, ih] at h
    omega

theorem levRec_eq_zero_iff (A B : List Char) : levRec A B = 0 ↔ A = B := by
  constructor
  · intro h
    induction A, B using levRec.induct with
    | case1 ys =>
      rw [levRec] at h
      cases ys with
      | nil => rfl
      | cons y ys => simp at h
    | case2 x xs =>
      rw [levRec] at h
      simp at h
    | case3 x xs y ys ih1 ih2 ih3 =>
      rw [levRec] at h
      rcases Nat.min_eq_zero_iff.1 h with h1 | h1
      · omega
      · rcases Nat.min_eq_zero_iff.1 h1 with h2 | h2
        · omega
        · by_cases hxy : x = y
          · subst hxy
            rw [if_pos rfl] at h2
            rw [ih3 (by omega)]
          · rw [if_neg hxy] at h2
            omega
  · intro h
    subst h
    exact levRec_self A

theorem string_eq_of_data {s t : String} (h : s.data = t.data) : s = t :=
  String.ext h

/-- C1 (amended): on truthy (non-empty) arguments — where the early
`if not str...` returns of `levenshtein_distance` do not fire — the edit
distance is a non-negative integer, it is `0` exactly when the normalized
forms coincide, and it satisfies the triangle inequality.  (When an
argument is empty the function returns the raw length of the other
argument, which breaks both properties; see the counterexample.) -/
theorem levenshtein_metric_on_nonempty (a b c : String)
    (ha : a ≠ "") (hb : b ≠ "") (hc : c ≠ "") :
    0 ≤ (levenshtein_distance a b : ℤ)
    ∧ (levenshtein_distance a b = 0 ↔ normalize_text a = normalize_text b)
    ∧ levenshtein_distance a c ≤ levenshtein_distance a b + levenshtein_distance b c := by
  have hd : ∀ x y : String, x ≠ "" → y ≠ "" →
      levenshtein_distance x y = levRec (normalize_text x).data (normalize_text y).data := by
    intro x y hx hy
    rw [levenshtein_distance, if_neg hx, if_neg hy]
  refine ⟨Int.natCast_nonneg _, ?_, ?_⟩
  · rw [hd a b ha hb, levRec_eq_zero_iff]
    constructor
    · exact fun h => string_eq_of_data h
    · intro h; rw [h]
  · rw [hd a c ha hc, hd a b ha hb, hd b c hb hc]
    exact levRec_triangle _ _ _

/-- C1 counterexample: because the early returns of `levenshtein_distance`
measure the raw argument before normalization, for `a = "   "` (three
spaces), `b = "x"`, `c = ""` the triangle inequality fails (3 > 1 + 1),
and "distance zero iff normalized forms equal" fails for `("", " ")`. -/
theorem lev_triangle_counterexample :
    levenshtein_distance "   " "" = 3
    ∧ levenshtein_distance "   " "x" = 1
    ∧ levenshtein_distance "x" "" = 1
    ∧ ¬ (levenshtein_distance "   " "" ≤
          levenshtein_distance "   " "x" + levenshtein_distance "x" "")
    ∧ normalize_text "" = normalize_text " "
    ∧ levenshtein_distance "" " " ≠ 0 := by
  have h1 : levenshtein_distance "   " "" = 3 := by
    rw [levenshtein_distance, if_neg (by decide), if_pos rfl]; rfl
  have h2 : levenshtein_distance "   " "x" = 1 := by
    rw [levenshtein_distance, if_neg (by decide), if_neg (by decide)]
    have e1 : normalize_text "   " = "" := by decide
    have e2 : normalize_text "x" = "x" := by decide
    rw [e1, e2]
    show levRec [] ['x'] = 1
    rw [levRec]; rfl
  have h3 : levenshtein_distance "x" "" = 1 := by
    rw [levenshtein_distance, if_neg (by decide), if_pos rfl]; rfl
  have h6 : levenshtein_distance "" " " = 1 := by
    rw [levenshtein_distance, if_pos rfl]; rfl
  refine ⟨h1, h2, h3, ?_, by decide, ?_⟩
  · rw [h1, h2, h3]; omega
  · rw [h6]; omega

/-- Witness instantiating `levenshtein_metric_on_nonempty` at concrete
non-empty strings. -/
theorem levenshtein_metric_witness :
    (("a" : String) ≠ "" ∧ ("b" : String) ≠ "" ∧ ("ab" : String) ≠ "")
    ∧ (0 ≤ (levenshtein_distance "a" "b" : ℤ)
       ∧ (levenshtein_distance "a" "b" = 0 ↔ normalize_text "a" = normalize_text "b")
       ∧ levenshtein_distance "a" "ab" ≤
           levenshtein_distance "a" "b" + levenshtein_distance "b" "ab") :=
  ⟨⟨by decide, by decide, by decide⟩,
   levenshtein_metric_on_nonempty "a" "b" "ab" (by decide) (by decide) (by decide)⟩

/-! ## Similarity: `calculate_similarity` (src/src/utils.py lines 13-30)

The function returns `SequenceMatcher(None, n1, n2).ratio()` over the
normalized strings.  The matcher below is a faithful model of CPython's
`difflib.SequenceMatcher` for `isjunk = None`: `b2j` with the autojunk
pruning, the `find_longest_match` dynamic program with its four extension
loops, and the recursive block collection of `get_matching_blocks`, whose
total matched size is all `ratio` consumes.  The model was checked against
CPython's `difflib` on the concrete values used below. -/

/-- Positions of `c` in `b`, ascending (difflib's `b2j[c]`). -/
def occs (b : List Char) (c : Char) : List Nat :=
  (List.range b.length).filter (fun j => b[j]? == some c)

/-- Lookup in difflib's `b2j` mapping after the junk passes:
`SequenceMatcher(None, a, b)` has no junk function, so `bjunk` is empty,
but autojunk deletes, for sequences of length at least 200, every key
occurring more than `len(b) // 100 + 1` times; `b2j.get(c, [])` then
yields `[]` for a deleted or absent key. -/
def b2jGet (b : List Char) (c : Char) : List Nat :=
  let J := occs b c
  if 200 ≤ b.length ∧ b.length / 100 + 1 < J.length then [] else J

/-- The empty junk set of `SequenceMatcher(None, _, _)` (`isjunk = None`). -/
def bjunk : List Char := []

/-- A `(besti, bestj, bestsize)` triple of `find_longest_match`. -/
structure Best where
  besti : Nat
  bestj : Nat
  bestsize : Nat
deriving DecidableEq

/-- Inner loop of `find_longest_match` over the candidate column list
`b2j.get(a[i], [])`, building the fresh `newj2len` and updating the
running best.  `j < blo` is a `continue`, `j >= bhi` a `break`; otherwise
`k = newj2len[j] = j2len.get(j-1, 0) + 1` (for `j = 0` Python's
`get(-1, 0)` yields 0) and the best triple becomes `(i-k+1, j-k+1, k)`
whenever `k > bestsize`. -/
def innerLoop (j2len : List (Nat × Nat)) (i blo bhi : Nat) :
    List Nat → List (Nat × Nat) → Best → List (Nat × Nat) × Best
  | [], newj2len, best => (newj2len, best)
  | j :: js, newj2len, best =>
    if j < blo then innerLoop j2len i blo bhi js newj2len best
    else if bhi ≤ j then (newj2len, best)
    else
      let prev := if j = 0 then 0 else (j2len.lookup (j - 1)).getD 0
      let k := prev + 1
      let best' := if best.bestsize < k then Best.mk (i + 1 - k) (j + 1 - k) k else best
      innerLoop j2len i blo bhi js ((j, k) :: newj2len) best'

/-- Outer loop of `find_longest_match` over the rows `range(alo, ahi)`;
each row starts a fresh `newj2len` and installs it as `j2len` for the
next row. -/
def outerLoop (a b : List Char) (blo bhi : Nat) :
    List Nat → List (Nat × Nat) → Best → Best
  | [], _, best => best
  | i :: is, j2len, best =>
    let r := innerLoop j2len i blo bhi (b2jGet b (a.getD i ' ')) [] best
    outerLoop a b blo bhi is r.1 r.2

/-- Backward extension loop of `find_longest_match`
(`while besti > alo and bestj > blo and p(b[bestj-1]) and
a[besti-1] == b[bestj-1]`), recursing structurally on `besti`. -/
def extendBack (a b : List Char) (alo blo : Nat) (p : Char → Bool) :
    Nat → Nat → Nat → Best
  | 0, bestj, bestsize => Best.mk 0 bestj bestsize
  | besti + 1, bestj, bestsize =>
    if alo < besti + 1 ∧ blo < bestj ∧ p (b.getD (bestj - 1) ' ')
        ∧ a.getD besti ' ' = b.getD (bestj - 1) ' ' then
      extendBack a b alo blo p besti (bestj - 1) (bestsize + 1)
    else Best.mk (besti + 1) bestj bestsize

/-- Forward extension loop of `find_longest_match`
(`while besti+bestsize < ahi and bestj+bestsize < bhi and
p(b[bestj+bestsize]) and a[besti+bestsize] == b[bestj+bestsize]`).
The guard `besti + bestsize < ahi` is encoded by the fuel, which every
caller passes as `ahi - (besti + bestsize)`: it is positive exactly while
that guard holds and ticks down in lockstep with `bestsize`. -/
def extendFwd (a b : List Char) (bhi besti bestj : Nat) (p : Char → Bool) :
    Nat → Nat → Nat
  | 0, bestsize => bestsize
  | fuel + 1, bestsize =>
    if bestj + bestsize < bhi ∧ p (b.getD (bestj + bestsize) ' ')
        ∧ a.getD (besti + bestsize) ' ' = b.getD (bestj + bestsize) ' ' then
      extendFwd a b bhi besti bestj p fuel (bestsize + 1)
    else bestsize

/-- Model of `SequenceMatcher.find_longest_match` on
`[alo, ahi) × [blo, bhi)`: the dynamic program followed by the two
non-junk extension loops and the two junk extension loops (the junk set
is empty here so the junk loops never fire, but they are kept for
faithfulness). -/
def find_longest_match (a b : List Char) (alo ahi blo bhi : Nat) : Best :=
  let dp := outerLoop a b blo bhi (List.range' alo (ahi - alo)) [] (Best.mk alo blo 0)
  let e1 := extendBack a b alo blo (fun c => !(bjunk.contains c)) dp.besti dp.bestj dp.bestsize
  let s1 := extendFwd a b bhi e1.besti e1.bestj (fun c => !(bjunk.contains c))
      (ahi - (e1.besti + e1.bestsize)) e1.bestsize
  let e2 := extendBack a b alo blo (fun c => bjunk.contains c) e1.besti e1.bestj s1
  let s2 := extendFwd a b bhi e2.besti e2.bestj (fun c => bjunk.contains c)
      (ahi - (e2.besti + e2.bestsize)) e2.bestsize
  Best.mk e2.besti e2.bestj s2

/-- Total size of the matching blocks found by the recursive splitting of
`get_matching_blocks` (the queue-driven loop collects the same blocks, and
the final sorting and merging of adjacent blocks preserve the total size,
which is all `ratio` reads).  Each recursion strictly shrinks
`(ahi - alo) + (bhi - blo)` by at least two, so the fuel passed by
`totalMatches` below never runs out. -/
def matchTotal (a b : List Char) : Nat → Nat → Nat → Nat → Nat → Nat
  | 0, _, _, _, _ => 0
  | fuel + 1, alo, ahi, blo, bhi =>
    let m := find_longest_match a b alo ahi blo bhi
    if m.bestsize = 0 then 0
    else
      matchTotal a b fuel alo m.besti blo m.bestj + m.bestsize
        + matchTotal a b fuel (m.besti + m.bestsize) ahi (m.bestj + m.bestsize) bhi

/-- `matches = sum(triple[-1] for triple in get_matching_blocks())`. -/
def totalMatches (a b : List Char) : Nat :=
  matchTotal a b (a.length + b.length) 0 a.length 0 b.length

/-- Model of `difflib._calculate_ratio(matches, len(a) + len(b))` as an
exact rational (`2.0 * matches / length`, and `1.0` for two empty
sequences). -/
def ratioQ (a b : List Char) : ℚ :=
  if 0 < a.length + b.length then
    2 * (totalMatches a b : ℚ) / ((a.length + b.length : Nat) : ℚ)
  else 1

/-- Model of `calculate_similarity` (src/src/utils.py lines 13-30): `0.0`
when either input is falsy, else the gestalt ratio of the normalized
strings. -/
def calculate_similarity (str1 str2 : String) : ℚ :=
  if str1 = "" ∨ str2 = "" then 0
  else ratioQ (normalize_text str1).data (normalize_text str2).data

/-- C3 counterexample: the gestalt ratio is order-sensitive, because
`find_longest_match` breaks ties toward the block starting earliest in the
first sequence and the recursion then splits differently: for the pair
("abxa", "axab") the forward direction matches only "ab" (ratio 1/2) while
the reverse direction matches "xa" and then "a" (ratio 3/4).  CPython's
`difflib.SequenceMatcher(None, ...)` returns 0.5 and 0.75 on exactly these
inputs, so symmetry of `calculate_similarity` fails. -/
theorem similarity_not_symmetric :
    calculate_similarity "abxa" "axab" = 1 / 2
    ∧ calculate_similarity "axab" "abxa" = 3 / 4
    ∧ calculate_similarity "abxa" "axab" ≠ calculate_similarity "axab" "abxa" := by
  have e1 : normalize_text "abxa" = "abxa" := by decide
  have e2 : normalize_text "axab" = "axab" := by decide
  have m1 : totalMatches "abxa".data "axab".data = 2 := by decide
  have m2 : totalMatches "axab".data "abxa".data = 3 := by decide
  have h1 : calculate_similarity "abxa" "axab" = 1 / 2 := by
    rw [calculate_similarity, if_neg (by simp), e1, e2, ratioQ, if_pos (by decide), m1]
    norm_num
  have h2 : calculate_similarity "axab" "abxa" = 3 / 4 := by
    rw [calculate_similarity, if_neg (by simp), e2, e1, ratioQ, if_pos (by decide), m2]
    norm_num
  refine ⟨h1, h2, ?_⟩
  rw [h1, h2]
  norm_num

/-! ### Bounds of the matcher: the returned block lies inside the ranges -/

theorem mem_of_lookup_some_nat {l : List (Nat × Nat)} {k v : Nat}
    (h : l.lookup k = some v) : (k, v) ∈ l := by
  induction l with
  | nil => simp at h
  | cons p ps ih =>
    obtain ⟨a, b⟩ := p
    rw [List.lookup_cons] at h
    by_cases hk : k = a
    · subst hk
      simp only [beq_self_eq_true] at h
      cases h
      exact List.mem_cons_self _ _
    · have hne : (k == a) = false := by simp [hk]
      rw [hne] at h
      exact List.mem_cons_of_mem _ (ih h)

theorem innerLoop_bounds (j2len : List (Nat × Nat)) (i blo bhi alo : Nat)
    (halo : alo ≤ i)
    (hd : ∀ p ∈ j2len, p.2 + alo ≤ i ∧ p.2 + blo ≤ p.1 + 1) :
    ∀ (Js : List Nat) (newj2len : List (Nat × Nat)) (best : Best),
      (∀ p ∈ newj2len, p.2 + alo ≤ i + 1 ∧ p.2 + blo ≤ p.1 + 1) →
      alo ≤ best.besti → blo ≤ best.bestj →
      best.besti + best.bestsize ≤ i + 1 → best.bestj + best.bestsize ≤ bhi →
      (∀ p ∈ (innerLoop j2len i blo bhi Js newj2len best).1,
          p.2 + alo ≤ i + 1 ∧ p.2 + blo ≤ p.1 + 1)
      ∧ alo ≤ (innerLoop j2len i blo bhi Js newj2len best).2.besti
      ∧ blo ≤ (innerLoop j2len i blo bhi Js newj2len best).2.bestj
      ∧ (innerLoop j2len i blo bhi Js newj2len best).2.besti
          + (innerLoop j2len i blo bhi Js newj2len best).2.bestsize ≤ i + 1
      ∧ (innerLoop j2len i blo bhi Js newj2len best).2.bestj
          + (innerLoop j2len i blo bhi Js newj2len best).2.bestsize ≤ bhi := by
  intro Js
  induction Js with
  | nil =>
    intro newj2len best h1 h2 h3 h4 h5
    rw [innerLoop]
    exact ⟨h1, h2, h3, h4, h5⟩
  | cons j js ih =>
    intro newj2len best h1 h2 h3 h4 h5
    rw [innerLoop]
    by_cases hj1 : j < blo
    · rw [if_pos hj1]
      exact ih newj2len best h1 h2 h3 h4 h5
    · rw [if_neg hj1]
      by_cases hj2 : bhi ≤ j
      · rw [if_pos hj2]
        exact ⟨h1, h2, h3, h4, h5⟩
      · rw [if_neg hj2]
        have hbloj : blo ≤ j := Nat.le_of_not_lt hj1
        have hjbhi : j < bhi := Nat.lt_of_not_le hj2
        have hprev1 : (if j = 0 then 0 else (j2len.lookup (j - 1)).getD 0) + alo ≤ i ∧
            (if j = 0 then 0 else (j2len.lookup (j - 1)).getD 0) + blo ≤ j := by
          by_cases hj0 : j = 0
          · rw [if_pos hj0]
            subst hj0
            exact ⟨by omega, by omega⟩
          · rw [if_neg hj0]
            rcases e : j2len.lookup (j - 1) with _ | v
            · simp only [Option.getD_none]
              omega
            · have := hd _ (mem_of_lookup_some_nat e)
              simp only [Option.getD_some]
              omega
        refine ih _ _ ?_ ?_ ?_ ?_ ?_
        · intro p hp
          rcases List.mem_cons.1 hp with h | h
          · subst h
            constructor
            · simp only
              omega
            · simp only
              omega
          · exact h1 p h
        · by_cases hup : best.bestsize <
              (if j = 0 then 0 else (j2len.lookup (j - 1)).getD 0) + 1
          · rw [if_pos hup]
            simp only
            omega
          · rw [if_neg hup]
            exact h2
        · by_cases hup : best.bestsize <
              (if j = 0 then 0 else (j2len.lookup (j - 1)).getD 0) + 1
          · rw [if_pos hup]
            simp only
            omega
          · rw [if_neg hup]
            exact h3
        · by_cases hup : best.bestsize <
              (if j = 0 then 0 else (j2len.lookup (j - 1)).getD 0) + 1
          · rw [if_pos hup]
            simp only
            omega
          · rw [if_neg hup]
            exact h4
        · by_cases hup : best.bestsize <
              (if j = 0 then 0 else (j2len.lookup (j - 1)).getD 0) + 1
          · rw [if_pos hup]
            simp only
            omega
          · rw [if_neg hup]
            exact h5

theorem outerLoop_bounds (a b : List Char) (blo bhi ahi alo : Nat) :
    ∀ (rows : List Nat) (j2len : List (Nat × Nat)) (best : Best),
      rows.Pairwise (· < ·) →
      (∀ i ∈ rows, alo ≤ i ∧ i < ahi) →
      (∀ p ∈ j2len, (∀ i ∈ rows, p.2 + alo ≤ i) ∧ p.2 + blo ≤ p.1 + 1) →
      alo ≤ best.besti → blo ≤ best.bestj →
      best.besti + best.bestsize ≤ ahi →
      (∀ i ∈ rows, best.besti + best.bestsize ≤ i + 1) →
      best.bestj + best.bestsize ≤ bhi →
      alo ≤ (outerLoop a b blo bhi rows j2len best).besti
      ∧ blo ≤ (outerLoop a b blo bhi rows j2len best).bestj
      ∧ (outerLoop a b blo bhi rows j2len best).besti
          + (outerLoop a b blo bhi rows j2len best).bestsize ≤ ahi
      ∧ (outerLoop a b blo bhi rows j2len best).bestj
          + (outerLoop a b blo bhi rows j2len best).bestsize ≤ bhi := by
  intro rows
  induction rows with
  | nil =>
    intro j2len best hp hr hd h1 h2 h3 h4 h5
    rw [outerLoop]
    exact ⟨h1, h2, h3, h5⟩
  | cons i is ih =>
    intro j2len best hp hr hd h1 h2 h3 h4 h5
    rw [outerLoop]
    have hi := hr i (List.mem_cons_self _ _)
    have hinner := innerLoop_bounds j2len i blo bhi alo hi.1
      (fun p hp' => ⟨(hd p hp').1 i (List.mem_cons_self _ _), (hd p hp').2⟩)
      (b2jGet b (a.getD i ' ')) [] best (by simp)
      h1 h2 (h4 i (List.mem_cons_self _ _)) h5
    have hlt : ∀ i' ∈ is, i < i' := fun i' h' => List.rel_of_pairwise_cons hp h'
    refine ih _ _ (List.Pairwise.of_cons hp)
      (fun i' h' => hr i' (List.mem_cons_of_mem _ h')) ?_
      hinner.2.1 hinner.2.2.1 ?_ ?_ hinner.2.2.2.2
    · intro p hp'
      refine ⟨fun i' h' => ?_, (hinner.1 p hp').2⟩
      have := (hinner.1 p hp').1
      have := hlt i' h'
      omega
    · have := hinner.2.2.2.1
      omega
    · intro i' h'
      have := hinner.2.2.2.1
      have := hlt i' h'
      omega

theorem extendBack_bounds (a b : List Char) (alo blo : Nat) (p : Char → Bool) :
    ∀ besti bestj bestsize, alo ≤ besti → blo ≤ bestj →
      alo ≤ (extendBack a b alo blo p besti bestj bestsize).besti
      ∧ blo ≤ (extendBack a b alo blo p besti bestj bestsize).bestj
      ∧ (extendBack a b alo blo p besti bestj bestsize).besti
          + (extendBack a b alo blo p besti bestj bestsize).bestsize = besti + bestsize
      ∧ (extendBack a b alo blo p besti bestj bestsize).bestj
          + (extendBack a b alo blo p besti bestj bestsize).bestsize = bestj + bestsize := by
  intro besti
  induction besti with
  | zero =>
    intro bestj bestsize h1 h2
    rw [extendBack]
    exact ⟨h1, h2, rfl, rfl⟩
  | succ m ih =>
    intro bestj bestsize h1 h2
    rw [extendBack]
    by_cases hc : alo < m + 1 ∧ blo < bestj ∧ p (b.getD (bestj - 1) ' ')
        ∧ a.getD m ' ' = b.getD (bestj - 1) ' '
    · rw [if_pos hc]
      have := ih (bestj - 1) (bestsize + 1) (by omega) (by omega)
      refine ⟨this.1, this.2.1, ?_, ?_⟩
      · have := this.2.2.1
        omega
      · have h3 := this.2.2.2
        omega
    · rw [if_neg hc]
      exact ⟨h1, h2, rfl, rfl⟩

theorem extendFwd_bounds (a b : List Char) (bhi besti bestj : Nat) (p : Char → Bool) :
    ∀ fuel bestsize,
      bestsize ≤ extendFwd a b bhi besti bestj p fuel bestsize
      ∧ extendFwd a b bhi besti bestj p fuel bestsize ≤ bestsize + fuel
      ∧ (bestj + bestsize ≤ bhi →
          bestj + extendFwd a b bhi besti bestj p fuel bestsize ≤ bhi) := by
  intro fuel
  induction fuel with
  | zero =>
    intro bestsize
    rw [extendFwd]
    exact ⟨le_rfl, by omega, fun h => h⟩
  | succ f ih =>
    intro bestsize
    rw [extendFwd]
    by_cases hc : bestj + bestsize < bhi ∧ p (b.getD (bestj + bestsize) ' ')
        ∧ a.getD (besti + bestsize) ' ' = b.getD (bestj + bestsize) ' '
    · rw [if_pos hc]
      have := ih (bestsize + 1)
      refine ⟨by omega, by omega, fun _ => this.2.2 (by omega)⟩
    · rw [if_neg hc]
      exact ⟨le_rfl, by omega, fun h => h⟩

theorem flm_bounds (a b : List Char) (alo ahi blo bhi : Nat)
    (h1 : alo ≤ ahi) (h2 : blo ≤ bhi) :
    alo ≤ (find_longest_match a b alo ahi blo bhi).besti
    ∧ blo ≤ (find_longest_match a b alo ahi blo bhi).bestj
    ∧ (find_longest_match a b alo ahi blo bhi).besti
        + (find_longest_match a b alo ahi blo bhi).bestsize ≤ ahi
    ∧ (find_longest_match a b alo ahi blo bhi).bestj
        + (find_longest_match a b alo ahi blo bhi).bestsize ≤ bhi := by
  have hrows1 : (List.range' alo (ahi - alo)).Pairwise (· < ·) := by
    have := List.pairwise_lt_range' alo (ahi - alo) 1 (by omega)
    simpa using this
  have hrows2 : ∀ i ∈ List.range' alo (ahi - alo), alo ≤ i ∧ i < ahi := by
    intro i hi
    rw [List.mem_range'_1] at hi
    omega
  have hdp := outerLoop_bounds a b blo bhi ahi alo (List.range' alo (ahi - alo)) []
    (Best.mk alo blo 0) hrows1 hrows2 (by simp) le_rfl le_rfl (by simpa using h1)
    (fun i hi => by have := (hrows2 i hi).1; simp; omega) (by simpa using h2)
  rw [find_longest_match]
  set dp := outerLoop a b blo bhi (List.range' alo (ahi - alo)) [] (Best.mk alo blo 0) with hdpd
  have he1 := extendBack_bounds a b alo blo (fun c => !(bjunk.contains c))
    dp.besti dp.bestj dp.bestsize hdp.1 hdp.2.1
  set e1 := extendBack a b alo blo (fun c => !(bjunk.contains c)) dp.besti dp.bestj dp.bestsize
  have hs1 := extendFwd_bounds a b bhi e1.besti e1.bestj (fun c => !(bjunk.contains c))
    (ahi - (e1.besti + e1.bestsize)) e1.bestsize
  set s1 := extendFwd a b bhi e1.besti e1.bestj (fun c => !(bjunk.contains c))
    (ahi - (e1.besti + e1.bestsize)) e1.bestsize
  have he2 := extendBack_bounds a b alo blo (fun c => bjunk.contains c)
    e1.besti e1.bestj s1 he1.1 he1.2.1
  set e2 := extendBack a b alo blo (fun c => bjunk.contains c) e1.besti e1.bestj s1
  have hs2 := extendFwd_bounds a b bhi e2.besti e2.bestj (fun c => bjunk.contains c)
    (ahi - (e2.besti + e2.bestsize)) e2.bestsize
  set s2 := extendFwd a b bhi e2.besti e2.bestj (fun c => bjunk.contains c)
    (ahi - (e2.besti + e2.bestsize)) e2.bestsize
  have hb1 : e1.besti + e1.bestsize ≤ ahi := by
    have := he1.2.2.1
    have := hdp.2.2.1
    omega
  have hb2 : e1.bestj + e1.bestsize ≤ bhi := by
    have := he1.2.2.2
    have := hdp.2.2.2
    omega
  have hb1' : e1.besti + s1 ≤ ahi := by
    have := hs1.2.1
    omega
  have hb2' : e1.bestj + s1 ≤ bhi := hs1.2.2 hb2
  have hb3 : e2.besti + e2.bestsize ≤ ahi := by
    have := he2.2.2.1
    omega
  have hb4 : e2.bestj + e2.bestsize ≤ bhi := by
    have := he2.2.2.2
    omega
  refine ⟨he2.1, he2.2.1, ?_, ?_⟩
  · have := hs2.2.1
    simp only
    omega
  · have := hs2.2.2 hb4
    simp only
    omega

/-- Matched totals never exceed either range length: the found block and
the two recursive sub-ranges partition disjoint stretches of both
sequences. -/
theorem matchTotal_le (a b : List Char) :
    ∀ fuel alo ahi blo bhi, alo ≤ ahi → blo ≤ bhi →
      matchTotal a b fuel alo ahi blo bhi ≤ min (ahi - alo) (bhi - blo) := by
  intro fuel
  induction fuel with
  | zero =>
    intro alo ahi blo bhi h1 h2
    rw [matchTotal]
    omega
  | succ f ih =>
    intro alo ahi blo bhi h1 h2
    rw [matchTotal]
    have hb := flm_bounds a b alo ahi blo bhi h1 h2
    by_cases hk : (find_longest_match a b alo ahi blo bhi).bestsize = 0
    · rw [if_pos hk]
      omega
    · rw [if_neg hk]
      have hl := ih alo (find_longest_match a b alo ahi blo bhi).besti blo
        (find_longest_match a b alo ahi blo bhi).bestj hb.1 hb.2.1
      have hr := ih ((find_longest_match a b alo ahi blo bhi).besti
          + (find_longest_match a b alo ahi blo bhi).bestsize) ahi
        ((find_longest_match a b alo ahi blo bhi).bestj
          + (find_longest_match a b alo ahi blo bhi).bestsize) bhi
        hb.2.2.1 hb.2.2.2
      omega

theorem totalMatches_le (a b : List Char) :
    2 * totalMatches a b ≤ a.length + b.length := by
  have := matchTotal_le a b (a.length + b.length) 0 a.length 0 b.length
    (by omega) (by omega)
  rw [totalMatches]
  omega

theorem ratioQ_range (a b : List Char) : 0 ≤ ratioQ a b ∧ ratioQ a b ≤ 1 := by
  rw [ratioQ]
  by_cases h : 0 < a.length + b.length
  · rw [if_pos h]
    have hle := totalMatches_le a b
    constructor
    · positivity
    · rw [div_le_one (by exact_mod_cast h)]
      have : ((2 * totalMatches a b : Nat) : ℚ) ≤ ((a.length + b.length : Nat) : ℚ) := by
        exact_mod_cast hle
      push_cast at this ⊢
      linarith
  · rw [if_neg h]
    norm_num

/-! ### Self-comparison: on `(s, s)` the matcher always finds the whole
diagonal, so the ratio of any sequence with itself is 1 -/

theorem lookup_cons_ne {k j v : Nat} (rest : List (Nat × Nat)) (h : k ≠ j) :
    ((j, v) :: rest).lookup k = rest.lookup k := by
  rw [List.lookup_cons]
  have hne : (k == j) = false := by simp [h]
  rw [hne]

theorem b2jGet_sound (b : List Char) (c : Char) :
    ∀ j ∈ b2jGet b c, j < b.length ∧ b.getD j ' ' = c := by
  intro j hj
  rw [b2jGet] at hj
  by_cases hp : 200 ≤ b.length ∧ b.length / 100 + 1 < (occs b c).length
  · simp only [if_pos hp] at hj
    simp at hj
  · simp only [if_neg hp] at hj
    rw [occs, List.mem_filter, List.mem_range] at hj
    refine ⟨hj.1, ?_⟩
    have hj2 := hj.2
    rw [beq_iff_eq] at hj2
    rw [List.getD_eq_getElem?_getD, hj2]
    rfl

theorem b2jGet_sorted (b : List Char) (c : Char) :
    (b2jGet b c).Pairwise (· < ·) := by
  rw [b2jGet]
  by_cases hp : 200 ≤ b.length ∧ b.length / 100 + 1 < (occs b c).length
  · simp [if_pos hp]
  · simp only [if_neg hp]
    exact (List.pairwise_lt_range b.length).filter _

theorem b2jGet_self_mem (b : List Char) (i : Nat) (hi : i < b.length)
    (hne : b2jGet b (b.getD i ' ') ≠ []) : i ∈ b2jGet b (b.getD i ' ') := by
  rw [b2jGet] at hne ⊢
  by_cases hp : 200 ≤ b.length
      ∧ b.length / 100 + 1 < (occs b (b.getD i ' ')).length
  · rw [if_pos hp] at hne
    exact absurd rfl hne
  · rw [if_neg hp]
    rw [occs, List.mem_filter, List.mem_range]
    refine ⟨hi, ?_⟩
    rw [beq_iff_eq, List.getD_eq_getElem?_getD]
    rcases e : b[i]? with _ | x
    · rw [List.getElem?_eq_none_iff] at e
      omega
    · rfl

/-- Length of the maximal run of autojunk-surviving positions of `s`
ending at `j`, clipped at `lo`; on the pair `(s, s)` this is the value the
dynamic program accumulates on the diagonal. -/
def diagRun (s : List Char) (lo : Nat) : Nat → Nat
  | 0 => if lo = 0 ∧ b2jGet s (s.getD 0 ' ') ≠ [] then 1 else 0
  | j + 1 =>
    if lo ≤ j + 1 ∧ b2jGet s (s.getD (j + 1) ' ') ≠ [] then
      (if lo = j + 1 then 1 else diagRun s lo j + 1)
    else 0

theorem diagRun_eq (s : List Char) (lo j : Nat) (h1 : lo ≤ j)
    (h2 : b2jGet s (s.getD j ' ') ≠ []) :
    diagRun s lo j = if lo = j then 1 else diagRun s lo (j - 1) + 1 := by
  cases j with
  | zero =>
    have hlo : lo = 0 := by omega
    rw [diagRun, if_pos ⟨hlo, h2⟩, if_pos hlo]
  | succ m =>
    rw [diagRun, if_pos ⟨h1, h2⟩]
    rfl

theorem diagRun_zero_of (s : List Char) (lo j : Nat)
    (h : ¬(lo ≤ j ∧ b2jGet s (s.getD j ' ') ≠ [])) : diagRun s lo j = 0 := by
  cases j with
  | zero =>
    rw [diagRun, if_neg]
    intro hc
    exact h ⟨by omega, hc.2⟩
  | succ m => rw [diagRun, if_neg h]

theorem diagRun_pos (s : List Char) (lo j : Nat) (h1 : lo ≤ j)
    (h2 : b2jGet s (s.getD j ' ') ≠ []) : 1 ≤ diagRun s lo j := by
  rw [diagRun_eq s lo j h1 h2]
  by_cases h : lo = j
  · rw [if_pos h]
  · rw [if_neg h]
    omega

/-- On the pair `(s, s)` the inner loop of `find_longest_match` never moves
the best block off the diagonal: every column chain is dominated by the
diagonal run of its own row (processed earlier or in this row before it),
so only the diagonal cell can strictly improve the best. -/
theorem innerLoop_diag (s : List Char) (lo hi i : Nat)
    (hloi : lo ≤ i) (hihi : i < hi)
    (hJne : b2jGet s (s.getD i ' ') ≠ [])
    (j2len : List (Nat × Nat))
    (hJcol : ∀ p ∈ j2len, lo ≤ p.1 ∧ p.2 ≤ diagRun s lo p.1)
    (hJrow : ∀ p ∈ j2len, p.2 ≤ (if lo < i then diagRun s lo (i - 1) else 0))
    (hJdiag : (if i = 0 then 0 else (j2len.lookup (i - 1)).getD 0)
        = if lo < i then diagRun s lo (i - 1) else 0) :
    ∀ (Js : List Nat) (newj2len : List (Nat × Nat)) (best : Best),
      (∀ j ∈ Js, j ∈ b2jGet s (s.getD i ' ')) →
      Js.Pairwise (· < ·) →
      best.besti = best.bestj →
      (∀ j', lo ≤ j' → j' < i → diagRun s lo j' ≤ best.bestsize) →
      ((i ∈ Js) ∨ (diagRun s lo i ≤ best.bestsize
          ∧ newj2len.lookup i = some (diagRun s lo i))) →
      (∀ p ∈ newj2len, lo ≤ p.1 ∧ p.2 ≤ diagRun s lo p.1 ∧ p.2 ≤ diagRun s lo i) →
      ((innerLoop j2len i lo hi Js newj2len best).2.besti
          = (innerLoop j2len i lo hi Js newj2len best).2.bestj)
      ∧ (∀ j', lo ≤ j' → j' < i + 1 →
          diagRun s lo j' ≤ (innerLoop j2len i lo hi Js newj2len best).2.bestsize)
      ∧ ((innerLoop j2len i lo hi Js newj2len best).1.lookup i
          = some (diagRun s lo i))
      ∧ (∀ p ∈ (innerLoop j2len i lo hi Js newj2len best).1,
          lo ≤ p.1 ∧ p.2 ≤ diagRun s lo p.1 ∧ p.2 ≤ diagRun s lo i) := by
  intro Js
  induction Js with
  | nil =>
    intro newj2len best hJmem hsort hB1 hB2 hdiag hnew
    rw [innerLoop]
    have hright : diagRun s lo i ≤ best.bestsize
        ∧ newj2len.lookup i = some (diagRun s lo i) := by
      rcases hdiag with h | h
      · simp at h
      · exact h
    refine ⟨hB1, ?_, hright.2, fun p hp => hnew p hp⟩
    intro j' h1 h2
    rcases (by omega : j' < i ∨ j' = i) with h3 | h3
    · exact hB2 j' h1 h3
    · subst h3
      exact hright.1
  | cons j js ih =>
    intro newj2len best hJmem hsort hB1 hB2 hdiag hnew
    have hj : j ∈ b2jGet s (s.getD i ' ') := hJmem j (List.mem_cons_self _ _)
    have hjs : ∀ x ∈ js, j < x := fun x hx => List.rel_of_pairwise_cons hsort hx
    have hsound := b2jGet_sound s (s.getD i ' ') j hj
    have hpresj : b2jGet s (s.getD j ' ') ≠ [] := by
      rw [hsound.2]
      exact hJne
    rw [innerLoop]
    by_cases hj1 : j < lo
    · rw [if_pos hj1]
      refine ih _ _ (fun x hx => hJmem x (List.mem_cons_of_mem _ hx))
        (List.Pairwise.of_cons hsort) hB1 hB2 ?_ hnew
      rcases hdiag with h | h
      · rcases List.mem_cons.1 h with h' | h'
        · omega
        · exact Or.inl h'
      · exact Or.inr h
    · rw [if_neg hj1]
      have hbloj : lo ≤ j := Nat.le_of_not_lt hj1
      by_cases hj2 : hi ≤ j
      · rw [if_pos hj2]
        have hright : diagRun s lo i ≤ best.bestsize
            ∧ newj2len.lookup i = some (diagRun s lo i) := by
          rcases hdiag with h | h
          · rcases List.mem_cons.1 h with h' | h'
            · omega
            · have := hjs i h'
              omega
          · exact h
        refine ⟨hB1, ?_, hright.2, fun p hp => hnew p hp⟩
        intro j' h1 h2
        rcases (by omega : j' < i ∨ j' = i) with h3 | h3
        · exact hB2 j' h1 h3
        · subst h3
          exact hright.1
      · rw [if_neg hj2]
        have hjhi : j < hi := Nat.lt_of_not_le hj2
        have hdri : diagRun s lo i
            = if lo = i then 1 else diagRun s lo (i - 1) + 1 :=
          diagRun_eq s lo i hloi hJne
        have hdrj : diagRun s lo j
            = if lo = j then 1 else diagRun s lo (j - 1) + 1 :=
          diagRun_eq s lo j hbloj hpresj
        have hKcol : (if j = 0 then 0 else (j2len.lookup (j - 1)).getD 0) + 1
            ≤ diagRun s lo j := by
          by_cases hj0 : j = 0
          · rw [if_pos hj0]
            subst hj0
            rw [hdrj]
            have : lo = 0 := by omega
            rw [if_pos this]
          · rw [if_neg hj0]
            by_cases hloj : lo = j
            · rcases e : j2len.lookup (j - 1) with _ | v
              · rw [hdrj, if_pos hloj]
                simp
              · have := hJcol _ (mem_of_lookup_some_nat e)
                simp only at this
                omega
            · rw [hdrj, if_neg hloj]
              rcases e : j2len.lookup (j - 1) with _ | v
              · simp only [Option.getD_none]
                omega
              · have := hJcol _ (mem_of_lookup_some_nat e)
                simp only at this
                simp only [Option.getD_some]
                omega
        have hKrow : (if j = 0 then 0 else (j2len.lookup (j - 1)).getD 0) + 1
            ≤ diagRun s lo i := by
          have hpos := diagRun_pos s lo i hloi hJne
          by_cases hj0 : j = 0
          · rw [if_pos hj0]
            omega
          · rw [if_neg hj0]
            rcases e : j2len.lookup (j - 1) with _ | v
            · simp only [Option.getD_none]
              omega
            · have := hJrow _ (mem_of_lookup_some_nat e)
              simp only [Option.getD_some]
              by_cases hloi2 : lo < i
              · rw [if_pos hloi2] at this
                rw [hdri, if_neg (by omega : ¬ lo = i)]
                omega
              · rw [if_neg hloi2] at this
                omega
        refine ih _ _ (fun x hx => hJmem x (List.mem_cons_of_mem _ hx))
          (List.Pairwise.of_cons hsort) ?_ ?_ ?_ ?_
        · by_cases hji : j = i
          · subst hji
            by_cases hup : best.bestsize
                < (if j = 0 then 0 else (j2len.lookup (j - 1)).getD 0) + 1
            · rw [if_pos hup]
            · rw [if_neg hup]
              exact hB1
          · have hnoup : ¬ best.bestsize
                < (if j = 0 then 0 else (j2len.lookup (j - 1)).getD 0) + 1 := by
              by_cases hlt : j < i
              · have := hB2 j hbloj hlt
                omega
              · have hgt : i < j := by omega
                have hdri_le : diagRun s lo i ≤ best.bestsize := by
                  rcases hdiag with h | h
                  · rcases List.mem_cons.1 h with h' | h'
                    · omega
                    · have := hjs i h'
                      omega
                  · exact h.1
                omega
            rw [if_neg hnoup]
            exact hB1
        · intro j' h1 h2
          have hj' := hB2 j' h1 h2
          by_cases hup : best.bestsize
              < (if j = 0 then 0 else (j2len.lookup (j - 1)).getD 0) + 1
          · rw [if_pos hup]
            simp only
            omega
          · rw [if_neg hup]
            exact hj'
        · by_cases hji : j = i
          · subst hji
            have hKdiag : (if j = 0 then 0 else (j2len.lookup (j - 1)).getD 0) + 1
                = diagRun s lo j := by
              rw [hJdiag]
              by_cases hloj : lo < j
              · rw [if_pos hloj, hdri, if_neg (by omega : ¬ lo = j)]
              · rw [if_neg hloj, hdri, if_pos (by omega : lo = j)]
            refine Or.inr ⟨?_, ?_⟩
            · by_cases hup : best.bestsize
                  < (if j = 0 then 0 else (j2len.lookup (j - 1)).getD 0) + 1
              · rw [if_pos hup]
                simp only
                omega
              · rw [if_neg hup]
                omega
            · rw [← hKdiag]
              exact List.lookup_cons_self
          · rcases hdiag with h | h
            · rcases List.mem_cons.1 h with h' | h'
              · omega
              · exact Or.inl h'
            · refine Or.inr ⟨?_, ?_⟩
              · by_cases hup : best.bestsize
                    < (if j = 0 then 0 else (j2len.lookup (j - 1)).getD 0) + 1
                · rw [if_pos hup]
                  simp only
                  have := h.1
                  omega
                · rw [if_neg hup]
                  exact h.1
              · rw [lookup_cons_ne _ (fun hc => hji hc.symm)]
                exact h.2
        · intro p hp
          rcases List.mem_cons.1 hp with h | h
          · subst h
            exact ⟨hbloj, hKcol, hKrow⟩
          · exact hnew p h

theorem outerLoop_diag (s : List Char) (lo hi : Nat) (hhi : hi ≤ s.length) :
    ∀ (cnt i : Nat) (j2len : List (Nat × Nat)) (best : Best),
      lo ≤ i → i + cnt = hi →
      (∀ p ∈ j2len, lo ≤ p.1 ∧ p.2 ≤ diagRun s lo p.1) →
      (∀ p ∈ j2len, p.2 ≤ (if lo < i then diagRun s lo (i - 1) else 0)) →
      ((if i = 0 then 0 else (j2len.lookup (i - 1)).getD 0)
          = if lo < i then diagRun s lo (i - 1) else 0) →
      best.besti = best.bestj →
      (∀ j', lo ≤ j' → j' < i → diagRun s lo j' ≤ best.bestsize) →
      (outerLoop s s lo hi (List.range' i cnt) j2len best).besti
          = (outerLoop s s lo hi (List.range' i cnt) j2len best).bestj
      ∧ ∀ j', lo ≤ j' → j' < hi →
          diagRun s lo j' ≤ (outerLoop s s lo hi (List.range' i cnt) j2len best).bestsize := by
  intro cnt
  induction cnt with
  | zero =>
    intro i j2len best h1 h2 hJcol hJrow hJdiag hB1 hB2
    rw [List.range'_zero, outerLoop]
    exact ⟨hB1, fun j' h3 h4 => hB2 j' h3 (by omega)⟩
  | succ n ih =>
    intro i j2len best h1 h2 hJcol hJrow hJdiag hB1 hB2
    rw [List.range'_succ, outerLoop]
    by_cases hJe : b2jGet s (s.getD i ' ') = []
    · rw [hJe]
      rw [innerLoop]
      have hdr0 : diagRun s lo i = 0 :=
        diagRun_zero_of s lo i (fun h => h.2 hJe)
      refine ih (i + 1) [] best (by omega) (by omega) (by simp) (by simp) ?_ hB1 ?_
      · rw [if_neg (by omega : ¬ i + 1 = 0), if_pos (by omega : lo < i + 1)]
        have h7 : i + 1 - 1 = i := by omega
        rw [h7, hdr0]
        simp
      · intro j' h3 h4
        rcases (by omega : j' < i ∨ j' = i) with h5 | h5
        · exact hB2 j' h3 h5
        · subst h5
          rw [hdr0]
          omega
    · have hinner := innerLoop_diag s lo hi i h1 (by omega) hJe j2len hJcol hJrow hJdiag
        (b2jGet s (s.getD i ' ')) [] best (fun j hj => hj) (b2jGet_sorted s _)
        hB1 hB2 (Or.inl (b2jGet_self_mem s i (by omega) hJe)) (by simp)
      refine ih (i + 1)
        (innerLoop j2len i lo hi (b2jGet s (s.getD i ' ')) [] best).1
        (innerLoop j2len i lo hi (b2jGet s (s.getD i ' ')) [] best).2
        (by omega) (by omega) ?_ ?_ ?_ hinner.1 ?_
      · exact fun p hp => ⟨(hinner.2.2.2 p hp).1, (hinner.2.2.2 p hp).2.1⟩
      · intro p hp
        rw [if_pos (by omega : lo < i + 1)]
        have h7 : i + 1 - 1 = i := by omega
        rw [h7]
        exact (hinner.2.2.2 p hp).2.2
      · rw [if_neg (by omega : ¬ i + 1 = 0), if_pos (by omega : lo < i + 1)]
        have h7 : i + 1 - 1 = i := by omega
        rw [h7, hinner.2.2.1]
        rfl
      · intro j' h3 h4
        exact hinner.2.1 j' h3 (by omega)

theorem extendBack_diag (s : List Char) (lo : Nat) :
    ∀ d bs, lo ≤ d →
      extendBack s s lo lo (fun c => !(bjunk.contains c)) d d bs
        = Best.mk lo lo (bs + (d - lo)) := by
  intro d
  induction d with
  | zero =>
    intro bs h
    have hlo : lo = 0 := by omega
    subst hlo
    rw [extendBack]
    norm_num
  | succ m ih =>
    intro bs h
    rw [extendBack]
    by_cases hlo : lo < m + 1
    · rw [if_pos ⟨hlo, hlo, by simp [bjunk], rfl⟩]
      have h2 : m + 1 - 1 = m := by omega
      rw [h2, ih (bs + 1) (by omega)]
      have h3 : bs + 1 + (m - lo) = bs + (m + 1 - lo) := by omega
      rw [h3]
    · rw [if_neg (fun hc => hlo hc.1)]
      have hlo2 : lo = m + 1 := by omega
      subst hlo2
      have h3 : bs + (m + 1 - (m + 1)) = bs := by omega
      rw [h3]

theorem extendFwd_diag (s : List Char) (hi lo : Nat) :
    ∀ fuel bs, lo + bs + fuel ≤ hi →
      extendFwd s s hi lo lo (fun c => !(bjunk.contains c)) fuel bs = bs + fuel := by
  intro fuel
  induction fuel with
  | zero =>
    intro bs h
    rw [extendFwd]
    omega
  | succ f ih =>
    intro bs h
    rw [extendFwd]
    rw [if_pos ⟨by omega, by simp [bjunk], rfl⟩]
    rw [ih (bs + 1) (by omega)]
    omega

theorem extendBack_junk (a b : List Char) (alo blo : Nat) :
    ∀ d e f, extendBack a b alo blo (fun c => bjunk.contains c) d e f = Best.mk d e f := by
  intro d e f
  cases d with
  | zero => rw [extendBack]
  | succ m =>
    rw [extendBack]
    rw [if_neg]
    intro hc
    have := hc.2.2.1
    simp [bjunk] at this

theorem extendFwd_junk (a b : List Char) (bhi bi bj : Nat) :
    ∀ fuel f, extendFwd a b bhi bi bj (fun c => bjunk.contains c) fuel f = f := by
  intro fuel f
  cases fuel with
  | zero => rw [extendFwd]
  | succ g =>
    rw [extendFwd]
    rw [if_neg]
    intro hc
    have := hc.2.1
    simp [bjunk] at this

/-- On equal sequences `find_longest_match` returns the whole diagonal of
the requested range: the dynamic program leaves the best block on the
diagonal and the equality extension loops then stretch it to the full
range. -/
theorem flm_diag (s : List Char) (lo hi : Nat) (hlohi : lo ≤ hi)
    (hhi : hi ≤ s.length) :
    find_longest_match s s lo hi lo hi = Best.mk lo lo (hi - lo) := by
  have hrows1 : (List.range' lo (hi - lo)).Pairwise (· < ·) := by
    have := List.pairwise_lt_range' lo (hi - lo) 1 (by omega)
    simpa using this
  have hrows2 : ∀ i ∈ List.range' lo (hi - lo), lo ≤ i ∧ i < hi := by
    intro i hi2
    rw [List.mem_range'_1] at hi2
    omega
  have hdiag := outerLoop_diag s lo hi hhi (hi - lo) lo [] (Best.mk lo lo 0) le_rfl
    (by omega) (by simp) (by simp)
    (by cases lo <;> simp) rfl (fun j' h1 h2 => by omega)
  have hbnd := outerLoop_bounds s s lo hi hi lo (List.range' lo (hi - lo)) []
    (Best.mk lo lo 0) hrows1 hrows2 (by simp) le_rfl le_rfl (by simpa using hlohi)
    (fun i hi2 => by have := (hrows2 i hi2).1; simp; omega) (by simpa using hlohi)
  rw [find_longest_match]
  set dp := outerLoop s s lo hi (List.range' lo (hi - lo)) [] (Best.mk lo lo 0) with hdp
  have hd1 : dp.bestj = dp.besti := hdiag.1.symm
  have he1 : extendBack s s lo lo (fun c => !(bjunk.contains c)) dp.besti dp.bestj dp.bestsize
      = Best.mk lo lo (dp.bestsize + (dp.besti - lo)) := by
    rw [hd1]
    exact extendBack_diag s lo dp.besti dp.bestsize hbnd.1
  rw [he1]
  have hsum : lo + (dp.bestsize + (dp.besti - lo)) ≤ hi := by
    have := hbnd.2.2.1
    have := hbnd.1
    omega
  have hs1 : extendFwd s s hi lo lo (fun c => !(bjunk.contains c))
      (hi - (lo + (dp.bestsize + (dp.besti - lo)))) (dp.bestsize + (dp.besti - lo))
      = hi - lo := by
    rw [extendFwd_diag s hi lo _ _ (by omega)]
    omega
  simp only
  rw [hs1]
  rw [extendBack_junk]
  simp only
  rw [extendFwd_junk]

theorem extendBack_self (a b : List Char) (alo blo : Nat) (p : Char → Bool) (e f : Nat) :
    extendBack a b alo blo p alo e f = Best.mk alo e f := by
  cases halo : alo with
  | zero => rw [extendBack]
  | succ m =>
    rw [extendBack]
    rw [if_neg]
    intro hc
    exact absurd hc.1 (lt_irrefl _)

theorem flm_empty (a b : List Char) (alo blo : Nat) :
    find_longest_match a b alo alo blo blo = Best.mk alo blo 0 := by
  rw [find_longest_match]
  have h0 : alo - alo = 0 := by omega
  rw [h0, List.range'_zero, outerLoop]
  rw [extendBack_self]
  simp only
  have h1 : alo - (alo + 0) = 0 := by omega
  rw [h1, extendFwd]
  rw [extendBack_self]
  simp only
  rw [h1, extendFwd]

theorem matchTotal_empty (a b : List Char) :
    ∀ fuel alo blo, matchTotal a b fuel alo alo blo blo = 0 := by
  intro fuel alo blo
  cases fuel with
  | zero => rw [matchTotal]
  | succ f =>
    rw [matchTotal, flm_empty]
    rw [if_pos rfl]

theorem totalMatches_self (s : List Char) : totalMatches s s = s.length := by
  rw [totalMatches]
  rcases e : s.length with _ | m
  · exact matchTotal_empty s s (0 + 0) 0 0
  · have hf : m + 1 + (m + 1) = m + 1 + m + 1 := by omega
    have hlen : m + 1 ≤ s.length := by omega
    rw [hf, matchTotal]
    simp only [flm_diag s 0 (m + 1) (by omega) hlen, Nat.sub_zero]
    rw [if_neg (by omega : ¬ m + 1 = 0)]
    rw [matchTotal_empty]
    have h3 : 0 + (m + 1) = m + 1 := by omega
    rw [h3, matchTotal_empty]

theorem ratioQ_self (s : List Char) : ratioQ s s = 1 := by
  rw [ratioQ, totalMatches_self]
  by_cases h : 0 < s.length + s.length
  · rw [if_pos h]
    have hs : (0 : ℚ) < (s.length : ℚ) := by
      exact_mod_cast (by omega : 0 < s.length)
    have h2 : ((s.length + s.length : Nat) : ℚ) = 2 * (s.length : ℚ) := by
      push_cast
      ring
    rw [h2, div_self (by positivity)]
  · rw [if_neg h]

/-- C3 (amended): `calculate_similarity` returns 0.0 when either argument
is falsy, returns exactly 1.0 on any non-empty argument compared with
itself, and always lands in `[0, 1]`; however it is NOT symmetric (see
`similarity_not_symmetric` — the gestalt matching is order-sensitive). -/
theorem similarity_props_amended :
    (∀ x : String, calculate_similarity "" x = 0 ∧ calculate_similarity x "" = 0)
    ∧ (∀ a : String, a ≠ "" → calculate_similarity a a = 1)
    ∧ (∀ a b : String,
        0 ≤ calculate_similarity a b ∧ calculate_similarity a b ≤ 1) := by
  refine ⟨?_, ?_, ?_⟩
  · intro x
    constructor
    · rw [calculate_similarity, if_pos (Or.inl rfl)]
    · rw [calculate_similarity, if_pos (Or.inr rfl)]
  · intro a ha
    rw [calculate_similarity, if_neg (by simp [ha])]
    exact ratioQ_self _
  · intro a b
    rw [calculate_similarity]
    by_cases h : a = "" ∨ b = ""
    · rw [if_pos h]
      norm_num
    · rw [if_neg h]
      exact ratioQ_range _ _

/-- Witness instantiating `similarity_props_amended` at a concrete
non-empty string. -/
theorem similarity_props_witness :
    ("abc" : String) ≠ "" ∧ calculate_similarity "abc" "abc" = 1 :=
  ⟨by decide, similarity_props_amended.2.1 "abc" (by decide)⟩

/-! ## Matcher: `find_best_match` (src/src/utils.py lines 114-138) -/

/-- The candidate loop of `find_best_match`: `best_score` starts at the
threshold and a candidate replaces the incumbent only when its score is
strictly greater (`if score > best_score`). -/
def fbmLoop (query : String) : List String → Option String → ℚ → Option String × ℚ
  | [], best_match, best_score => (best_match, best_score)
  | c :: cs, best_match, best_score =>
    if best_score < calculate_similarity query c then
      fbmLoop query cs (some c) (calculate_similarity query c)
    else
      fbmLoop query cs best_match best_score

/-- Model of `find_best_match`: `None` for an empty candidate list, else
the result of the loop seeded with `(None, threshold)`. -/
def find_best_match (query : String) (candidates : List String) (threshold : ℚ) :
    Option String :=
  if candidates = [] then none
  else (fbmLoop query candidates none threshold).1

theorem fbmLoop_const (q : String) :
    ∀ (cs : List String) (b : Option String) (v : ℚ),
      (∀ c ∈ cs, calculate_similarity q c ≤ v) → fbmLoop q cs b v = (b, v) := by
  intro cs
  induction cs with
  | nil => intro b v h; rw [fbmLoop]
  | cons c cs ih =>
    intro b v h
    rw [fbmLoop]
    rw [if_neg (not_lt.2 (h c (List.mem_cons_self _ _)))]
    exact ih b v (fun d hd => h d (List.mem_cons_of_mem _ hd))

theorem fbmLoop_max (q : String) :
    ∀ (cs : List String) (b : Option String) (v M : ℚ),
      M ∈ cs.map (calculate_similarity q) →
      (∀ c ∈ cs, calculate_similarity q c ≤ M) →
      v < M →
      fbmLoop q cs b v
        = (cs.find? (fun c => calculate_similarity q c == M), M) := by
  intro cs
  induction cs with
  | nil =>
    intro b v M hM
    simp at hM
  | cons c cs ih =>
    intro b v M hM hle hv
    rw [fbmLoop, List.find?]
    by_cases hc : calculate_similarity q c = M
    · have hbeq : (calculate_similarity q c == M) = true := by
        rw [beq_iff_eq]
        exact hc
      rw [hbeq, if_pos (by rw [hc]; exact hv), hc]
      rw [fbmLoop_const q cs (some c) M
        (fun d hd => hle d (List.mem_cons_of_mem _ hd))]
    · have hbeq : (calculate_similarity q c == M) = false := by
        rw [beq_eq_false_iff_ne]
        exact hc
      rw [hbeq]
      have hcM : calculate_similarity q c < M :=
        lt_of_le_of_ne (hle c (List.mem_cons_self _ _)) hc
      have hM2 : M ∈ cs.map (calculate_similarity q) := by
        rcases List.mem_map.1 hM with ⟨a, ha, haM⟩
        rcases List.mem_cons.1 ha with h | h
        · exact absurd (h ▸ haM) hc
        · exact List.mem_map.2 ⟨a, h, haM⟩
      have hle2 : ∀ d ∈ cs, calculate_similarity q d ≤ M :=
        fun d hd => hle d (List.mem_cons_of_mem _ hd)
      by_cases hv2 : v < calculate_similarity q c
      · rw [if_pos hv2]
        exact ih (some c) (calculate_similarity q c) M hM2 hle2 hcM
      · rw [if_neg hv2]
        exact ih b v M hM2 hle2 hv

theorem list_exists_max (q : String) :
    ∀ (cs : List String), cs ≠ [] →
      ∃ M, M ∈ cs.map (calculate_similarity q)
        ∧ ∀ c ∈ cs, calculate_similarity q c ≤ M := by
  intro cs
  induction cs with
  | nil => intro h; exact absurd rfl h
  | cons c cs ih =>
    intro _
    by_cases hcs : cs = []
    · subst hcs
      refine ⟨calculate_similarity q c, by simp, ?_⟩
      intro d hd
      rcases List.mem_cons.1 hd with h | h
      · rw [h]
      · simp at h
    · rcases ih hcs with ⟨M, hM1, hM2⟩
      by_cases hcmp : calculate_similarity q c ≤ M
      · refine ⟨M, ?_, ?_⟩
        · rcases List.mem_map.1 hM1 with ⟨a, ha, haM⟩
          exact List.mem_map.2 ⟨a, List.mem_cons_of_mem _ ha, haM⟩
        · intro d hd
          rcases List.mem_cons.1 hd with h | h
          · rw [h]; exact hcmp
          · exact hM2 d h
      · refine ⟨calculate_similarity q c, by simp, ?_⟩
        intro d hd
        rcases List.mem_cons.1 hd with h | h
        · rw [h]
        · exact le_trans (hM2 d h) (le_of_not_le hcmp)

theorem find?_decomp {p : String → Bool} :
    ∀ {l : List String} {x : String}, l.find? p = some x →
      x ∈ l ∧ p x = true ∧ ∃ l₁ l₂, l = l₁ ++ x :: l₂ ∧ ∀ y ∈ l₁, p y = false := by
  intro l
  induction l with
  | nil => intro x h; simp at h
  | cons c cs ih =>
    intro x h
    rw [List.find?] at h
    rcases e : p c with _ | _
    · rw [e] at h
      rcases ih h with ⟨h1, h2, l₁, l₂, h3, h4⟩
      refine ⟨List.mem_cons_of_mem _ h1, h2, c :: l₁, l₂, by rw [h3]; rfl, ?_⟩
      intro y hy
      rcases List.mem_cons.1 hy with h5 | h5
      · rw [h5]; exact e
      · exact h4 y h5
    · rw [e] at h
      cases h
      exact ⟨List.mem_cons_self _ _, e, [], cs, rfl, by simp⟩

/-- C2: `find_best_match` returns `None` exactly when every candidate
scores at most the threshold; a returned candidate is a member whose score
strictly exceeds the threshold, is maximal among all candidates, and
strictly exceeds the score of every earlier candidate (so a candidate at
exactly the threshold never wins and a later tie never displaces the
incumbent). -/
theorem find_best_match_spec (q : String) (cs : List String) (t : ℚ) :
    (find_best_match q cs t = none ↔ ∀ c ∈ cs, calculate_similarity q c ≤ t)
    ∧ ∀ c, find_best_match q cs t = some c →
        c ∈ cs ∧ t < calculate_similarity q c
        ∧ (∀ d ∈ cs, calculate_similarity q d ≤ calculate_similarity q c)
        ∧ ∃ l₁ l₂, cs = l₁ ++ c :: l₂
            ∧ ∀ d ∈ l₁, calculate_similarity q d < calculate_similarity q c := by
  by_cases hnil : cs = []
  · subst hnil
    rw [find_best_match, if_pos rfl]
    exact ⟨⟨fun _ c hc => absurd hc (List.not_mem_nil c), fun _ => rfl⟩,
      fun c hc => absurd hc (by simp)⟩
  · rw [find_best_match, if_neg hnil]
    rcases list_exists_max q cs hnil with ⟨M, hM1, hM2⟩
    by_cases hth : M ≤ t
    · rw [fbmLoop_const q cs none t (fun c hc => le_trans (hM2 c hc) hth)]
      refine ⟨⟨fun _ c hc => le_trans (hM2 c hc) hth, fun _ => rfl⟩, ?_⟩
      intro c hc
      simp at hc
    · have hth2 : t < M := lt_of_not_le hth
      rw [fbmLoop_max q cs none t M hM1 hM2 hth2]
      simp only
      have hfind : ∃ x, cs.find? (fun c => calculate_similarity q c == M) = some x := by
        rcases List.mem_map.1 hM1 with ⟨a, ha, haM⟩
        rcases e : cs.find? (fun c => calculate_similarity q c == M) with _ | x
        · exfalso
          have := List.find?_eq_none.1 e a ha
          rw [beq_iff_eq] at this
          exact this haM
        · exact ⟨x, rfl⟩
      rcases hfind with ⟨x, hx⟩
      rw [hx]
      constructor
      · constructor
        · intro h
          simp at h
        · intro hall
          exfalso
          rcases List.mem_map.1 hM1 with ⟨a, ha, haM⟩
          have h5 := hall a ha
          rw [haM] at h5
          exact absurd h5 (not_le.2 hth2)
      · intro c hc
        cases hc
        rcases find?_decomp hx with ⟨h1, h2, l₁, l₂, h3, h4⟩
        rw [beq_iff_eq] at h2
        refine ⟨h1, by rw [h2]; exact hth2, fun d hd => by rw [h2]; exact hM2 d hd,
          l₁, l₂, h3, ?_⟩
        intro d hd
        have hne := h4 d hd
        rw [beq_eq_false_iff_ne] at hne
        have hdmem : d ∈ cs := by
          rw [h3]
          exact List.mem_append_left _ hd
        rw [h2]
        exact lt_of_le_of_ne (hM2 d hdmem) hne

/-- Witness instantiating `find_best_match_spec` at a concrete query,
candidate list and threshold. -/
theorem find_best_match_witness :
    find_best_match "q" ["z"] (4 / 5) = none := by
  have h0 : calculate_similarity "q" "z" = 0 := by
    have e1 : normalize_text "q" = "q" := by decide
    have e2 : normalize_text "z" = "z" := by decide
    have m0 : totalMatches "q".data "z".data = 0 := by decide
    rw [calculate_similarity, if_neg (by simp), e1, e2, ratioQ, if_pos (by decide), m0]
    norm_num
  refine (find_best_match_spec "q" ["z"] (4 / 5)).1.mpr ?_
  intro c hc
  have hc2 : c = "z" := by simpa using hc
  rw [hc2, h0]
  norm_num

/-! ## Addon handlers (src/src/addon.py)

The handler caches are plain Python dicts (`self.cache`), modelled as
association lists under `List.lookup` with writes consed on.  The handlers
read no clock and store no timestamps; their results depend only on the
cache contents and the request. -/

/-- Python truthiness of `request.get(...)` for a string field
(`if not content_id`): falsy when absent (None) or the empty string. -/
def optStrFalsy : Option String → Bool
  | none => true
  | some s => s = ""

/-- Python's f-string rendering of an optional int (`f"s{season}"` prints
`sNone` when the value is None). -/
def pyShow : Option Int → String
  | none => "None"
  | some n => toString n

/-- The metadata dictionary assembled by `MetadataHandler._fetch_metadata`
(src/src/addon.py lines 211-242). -/
structure MetaObj where
  mid : String
  mtype : String
  name : String
  poster : String
  description : String
  releaseInfo : String
  imdbRating : Int
  runtime : String
  genres : List String
  writers : List String
  directors : List String
  castList : List String
  videos : List String
deriving DecidableEq

/-- Model of `_fetch_metadata`: the scraper call that would populate the
fields is a stub, so every field keeps its literal default. -/
def _fetch_metadata (content_id content_type : String) : MetaObj :=
  { mid := content_id, mtype := content_type, name := "", poster := "",
    description := "", releaseInfo := "", imdbRating := 0, runtime := "",
    genres := [], writers := [], directors := [], castList := [], videos := [] }

/-- The `if meta:` guard before the cache write tests Python truthiness of
the fetched dict; a 13-key dict is always truthy. -/
def metaTruthy (_ : MetaObj) : Bool := true

structure MetaRequest where
  rtype : Option String
  rid : Option String
deriving DecidableEq

/-- Response envelope of `get_metadata`: `meta?` is `none` for the
`{"meta": {}}` empty-dict envelope; `cacheMaxAge?` is `some` exactly when
the response dict carries a `cacheMaxAge` key. -/
structure MetaResponse where
  meta? : Option MetaObj
  cacheMaxAge? : Option Nat
deriving DecidableEq

def metaCacheKey (content_type content_id : String) : String :=
  content_type ++ ":" ++ content_id

/-- Model of `MetadataHandler.get_metadata` (src/src/addon.py lines
177-209): no kind validation; a falsy id yields the `{"meta": {}}`
envelope; a cache hit returns the cached dict with no `cacheMaxAge`; a
miss fetches, writes the cache (the dict is always truthy) and returns the
dict with `cacheMaxAge = 604800` (7 days). -/
def get_metadata (cache : List (String × MetaObj)) (req : MetaRequest) :
    List (String × MetaObj) × MetaResponse :=
  let content_id := req.rid
  let content_type := req.rtype.getD "movie"
  if optStrFalsy content_id then (cache, ⟨none, none⟩)
  else
    let cid := content_id.getD ""
    let key := metaCacheKey content_type cid
    match cache.lookup key with
    | some m => (cache, ⟨some m, none⟩)
    | none =>
      let meta := _fetch_metadata cid content_type
      (if metaTruthy meta then (key, meta) :: cache else cache,
        ⟨some meta, some 604800⟩)

structure StreamObj where
  url : String
  title : String
  server : String
deriving DecidableEq

structure StreamRequest where
  rtype : Option String
  rid : Option String
  season : Option Int
  episode : Option Int
deriving DecidableEq

structure StreamsResponse where
  streams : List StreamObj
  cacheMaxAge? : Option Nat
deriving DecidableEq

/-- Cache key of `get_streams`: `f"{content_type}:{content_id}"`, extended
by `f":s{season}e{episode}"` only when `season is not None` — so the
episode value does not contribute when season is None. -/
def streamCacheKey (content_type content_id : String)
    (season episode : Option Int) : String :=
  let base := content_type ++ ":" ++ content_id
  if season.isSome then base ++ ":s" ++ pyShow season ++ "e" ++ pyShow episode
  else base

/-- The repository's `StreamHandler._fetch_streams` stub (src/src/addon.py
lines 297-329): the scraper call is not implemented, so it returns `[]`. -/
def _fetch_streams (_content_id _content_type : String)
    (_season _episode : Option Int) : List StreamObj := []

/-- Model of `StreamHandler.get_streams` (src/src/addon.py lines 257-295),
parametrized by the underlying fetch (`self._fetch_streams`, which a
scenario may replace to simulate scraper results): falsy id yields the
empty envelope; a cache hit is served without `cacheMaxAge`; a miss
fetches and writes the cache only when the result is truthy (non-empty),
returning it with `cacheMaxAge = 3600` (1 hour). -/
def get_streams
    (fetch : String → String → Option Int → Option Int → List StreamObj)
    (cache : List (String × List StreamObj)) (req : StreamRequest) :
    List (String × List StreamObj) × StreamsResponse :=
  let content_id := req.rid
  let content_type := req.rtype.getD "movie"
  if optStrFalsy content_id then (cache, ⟨[], none⟩)
  else
    let cid := content_id.getD ""
    let key := streamCacheKey content_type cid req.season req.episode
    match cache.lookup key with
    | some ss => (cache, ⟨ss, none⟩)
    | none =>
      let streams := fetch cid content_type req.season req.episode
      (if streams ≠ [] then (key, streams) :: cache else cache,
        ⟨streams, some 3600⟩)

/-! ### Handler path lemmas -/

theorem get_metadata_falsy (cache : List (String × MetaObj)) (req : MetaRequest)
    (h : optStrFalsy req.rid = true) :
    get_metadata cache req = (cache, ⟨none, none⟩) := by
  simp only [get_metadata, h, if_true]

theorem get_metadata_hit (cache : List (String × MetaObj)) (req : MetaRequest)
    (m : MetaObj) (h1 : optStrFalsy req.rid = false)
    (h2 : cache.lookup (metaCacheKey (req.rtype.getD "movie") (req.rid.getD ""))
        = some m) :
    get_metadata cache req = (cache, ⟨some m, none⟩) := by
  simp only [get_metadata, h1, Bool.false_eq_true, if_false, h2]

theorem get_metadata_miss (cache : List (String × MetaObj)) (req : MetaRequest)
    (h1 : optStrFalsy req.rid = false)
    (h2 : cache.lookup (metaCacheKey (req.rtype.getD "movie") (req.rid.getD ""))
        = none) :
    get_metadata cache req
      = ((metaCacheKey (req.rtype.getD "movie") (req.rid.getD ""),
          _fetch_metadata (req.rid.getD "") (req.rtype.getD "movie")) :: cache,
         ⟨some (_fetch_metadata (req.rid.getD "") (req.rtype.getD "movie")),
          some 604800⟩) := by
  simp only [get_metadata, h1, Bool.false_eq_true, if_false, h2, metaTruthy, if_true]

theorem get_streams_falsy (fetch : String → String → Option Int → Option Int → List StreamObj)
    (cache : List (String × List StreamObj)) (req : StreamRequest)
    (h : optStrFalsy req.rid = true) :
    get_streams fetch cache req = (cache, ⟨[], none⟩) := by
  simp only [get_streams, h, if_true]

theorem get_streams_hit (fetch : String → String → Option Int → Option Int → List StreamObj)
    (cache : List (String × List StreamObj)) (req : StreamRequest)
    (ss : List StreamObj) (h1 : optStrFalsy req.rid = false)
    (h2 : cache.lookup (streamCacheKey (req.rtype.getD "movie") (req.rid.getD "")
        req.season req.episode) = some ss) :
    get_streams fetch cache req = (cache, ⟨ss, none⟩) := by
  simp only [get_streams, h1, Bool.false_eq_true, if_false, h2]

theorem get_streams_miss (fetch : String → String → Option Int → Option Int → List StreamObj)
    (cache : List (String × List StreamObj)) (req : StreamRequest)
    (h1 : optStrFalsy req.rid = false)
    (h2 : cache.lookup (streamCacheKey (req.rtype.getD "movie") (req.rid.getD "")
        req.season req.episode) = none) :
    get_streams fetch cache req
      = ((if fetch (req.rid.getD "") (req.rtype.getD "movie") req.season req.episode ≠ []
            then (streamCacheKey (req.rtype.getD "movie") (req.rid.getD "")
                    req.season req.episode,
                  fetch (req.rid.getD "") (req.rtype.getD "movie") req.season req.episode)
              :: cache
            else cache),
         ⟨fetch (req.rid.getD "") (req.rtype.getD "movie") req.season req.episode,
          some 3600⟩) := by
  simp only [get_streams, h1, Bool.false_eq_true, if_false, h2]

/-- C4 counterexample: caller misuse is NOT surfaced as a typed rejection.
A request with a missing identifier is answered with the default empty
envelope (`{"meta": {}}` / `{"streams": []}`) and the cache untouched, and
an unrecognized kind ("banana") is processed like any other kind — the
pipeline has no `ValidationError` path at all. -/
theorem validation_swallowed_counterexample :
    get_metadata [] ⟨some "movie", none⟩ = ([], ⟨none, none⟩)
    ∧ get_metadata [] ⟨some "banana", some ""⟩ = ([], ⟨none, none⟩)
    ∧ get_streams _fetch_streams [] ⟨some "movie", none, none, none⟩
        = ([], ⟨[], none⟩)
    ∧ get_streams _fetch_streams [] ⟨some "banana", some "x1", none, none⟩
        = ([], ⟨[], some 3600⟩) := by
  refine ⟨by decide, by decide, by decide, by decide⟩

/-- C4 (amended): there is no typed rejection: a missing or empty
identifier is swallowed into the default empty envelope with the cache
unchanged, and an unrecognized kind is never validated — it flows into the
cache key and the fetch like any recognized kind. -/
theorem missing_id_empty_envelope :
    (∀ (cache : List (String × MetaObj)) (req : MetaRequest),
        optStrFalsy req.rid = true →
        get_metadata cache req = (cache, ⟨none, none⟩))
    ∧ (∀ (fetch : String → String → Option Int → Option Int → List StreamObj)
          (cache : List (String × List StreamObj)) (req : StreamRequest),
        optStrFalsy req.rid = true →
        get_streams fetch cache req = (cache, ⟨[], none⟩))
    ∧ (∀ (t cid : String) (cache : List (String × MetaObj)),
        cid ≠ "" →
        cache.lookup (metaCacheKey t cid) = none →
        get_metadata cache ⟨some t, some cid⟩
          = ((metaCacheKey t cid, _fetch_metadata cid t) :: cache,
             ⟨some (_fetch_metadata cid t), some 604800⟩)) := by
  refine ⟨get_metadata_falsy, get_streams_falsy, ?_⟩
  intro t cid cache hcid hmiss
  exact get_metadata_miss cache ⟨some t, some cid⟩ (by simp [optStrFalsy, hcid]) hmiss

/-- Witness instantiating `missing_id_empty_envelope` at concrete
requests, including an unrecognized kind. -/
theorem missing_id_witness :
    get_metadata [] ⟨none, none⟩ = ([], ⟨none, none⟩)
    ∧ get_metadata [] ⟨some "weird", some "idx"⟩
        = ([(metaCacheKey "weird" "idx", _fetch_metadata "idx" "weird")],
           ⟨some (_fetch_metadata "idx" "weird"), some 604800⟩) :=
  ⟨missing_id_empty_envelope.1 [] ⟨none, none⟩ rfl,
   missing_id_empty_envelope.2.2 "weird" "idx" [] (by decide) rfl⟩

/-- C5: the stream cache is written only for a non-empty fetched list;
after a call whose fetch yields `[]` the cache is unchanged at that key
and a repeat of the same request takes the fetch path again (its response
carries the miss-path `cacheMaxAge`, not a pinned cached value). -/
theorem streams_empty_not_cached
    (fetch : String → String → Option Int → Option Int → List StreamObj)
    (cache : List (String × List StreamObj)) (req : StreamRequest)
    (hid : optStrFalsy req.rid = false)
    (hmiss : cache.lookup (streamCacheKey (req.rtype.getD "movie")
        (req.rid.getD "") req.season req.episode) = none)
    (hempty : fetch (req.rid.getD "") (req.rtype.getD "movie")
        req.season req.episode = []) :
    get_streams fetch cache req = (cache, ⟨[], some 3600⟩)
    ∧ get_streams fetch (get_streams fetch cache req).1 req
        = (cache, ⟨[], some 3600⟩)
    ∧ (∀ (fetch' : String → String → Option Int → Option Int → List StreamObj)
          cache' req',
        (get_streams fetch' cache' req').1 = cache'
        ∨ ∃ k S, S ≠ [] ∧ (get_streams fetch' cache' req').1 = (k, S) :: cache') := by
  have h1 : get_streams fetch cache req = (cache, ⟨[], some 3600⟩) := by
    rw [get_streams_miss fetch cache req hid hmiss, hempty]
    simp
  refine ⟨h1, ?_, ?_⟩
  · rw [h1]
    exact h1
  · intro fetch' cache' req'
    by_cases hida : optStrFalsy req'.rid = true
    · rw [get_streams_falsy fetch' cache' req' hida]
      exact Or.inl rfl
    · have hida' : optStrFalsy req'.rid = false := by
        rcases e : optStrFalsy req'.rid with _ | _
        · rfl
        · exact absurd e hida
      rcases e2 : cache'.lookup (streamCacheKey (req'.rtype.getD "movie")
          (req'.rid.getD "") req'.season req'.episode) with _ | ss
      · rw [get_streams_miss fetch' cache' req' hida' e2]
        by_cases hS : fetch' (req'.rid.getD "") (req'.rtype.getD "movie")
            req'.season req'.episode = []
        · rw [hS]
          simp
        · refine Or.inr ⟨streamCacheKey (req'.rtype.getD "movie") (req'.rid.getD "")
              req'.season req'.episode,
            fetch' (req'.rid.getD "") (req'.rtype.getD "movie") req'.season req'.episode,
            hS, ?_⟩
          rw [if_pos hS]
      · rw [get_streams_hit fetch' cache' req' ss hida' e2]
        exact Or.inl rfl

/-- Witness instantiating `streams_empty_not_cached` with the repository's
own stub fetch (which always returns the empty list). -/
theorem streams_empty_not_cached_witness :
    get_streams _fetch_streams [] ⟨some "movie", some "m1", none, none⟩
      = ([], ⟨[], some 3600⟩) :=
  (streams_empty_not_cached _fetch_streams [] ⟨some "movie", some "m1", none, none⟩
    (by decide) rfl rfl).1

/-- C6 counterexample: after one miss populates the metadata cache, a
second identical request is served from the cache (hit envelope, no
`cacheMaxAge`) and performs no fetch; the handlers consult no clock and
store no creation times, so this holds after any elapsed time — no
freshness window is ever enforced. -/
theorem cache_never_expires_counterexample :
    (get_metadata (get_metadata [] ⟨some "movie", some "m1"⟩).1
        ⟨some "movie", some "m1"⟩).2
      = ⟨some (_fetch_metadata "m1" "movie"), none⟩
    ∧ (get_metadata (get_metadata [] ⟨some "movie", some "m1"⟩).1
        ⟨some "movie", some "m1"⟩).1
      = (get_metadata [] ⟨some "movie", some "m1"⟩).1 := by
  refine ⟨by decide, by decide⟩

/-- C6 (amended): the caches never expire an entry: a read of a cached key
is always served the stored value unchanged (hit envelope, no fetch),
regardless of elapsed time — the handler state carries no timestamps and
the code reads no clock; the freshness windows exist only as advisory
`cacheMaxAge` fields (604800 s for metadata, 3600 s for streams) attached
to miss responses. -/
theorem cache_hit_forever :
    (∀ (cache : List (String × MetaObj)) (req : MetaRequest) (m : MetaObj),
        optStrFalsy req.rid = false →
        cache.lookup (metaCacheKey (req.rtype.getD "movie") (req.rid.getD ""))
            = some m →
        get_metadata cache req = (cache, ⟨some m, none⟩))
    ∧ (∀ (fetch : String → String → Option Int → Option Int → List StreamObj)
          (cache : List (String × List StreamObj)) (req : StreamRequest)
          (ss : List StreamObj),
        optStrFalsy req.rid = false →
        cache.lookup (streamCacheKey (req.rtype.getD "movie") (req.rid.getD "")
            req.season req.episode) = some ss →
        get_streams fetch cache req = (cache, ⟨ss, none⟩))
    ∧ (∀ (cache : List (String × MetaObj)) (req : MetaRequest),
        optStrFalsy req.rid = false →
        cache.lookup (metaCacheKey (req.rtype.getD "movie") (req.rid.getD ""))
            = none →
        (get_metadata cache req).2.cacheMaxAge? = some 604800)
    ∧ (∀ (fetch : String → String → Option Int → Option Int → List StreamObj)
          (cache : List (String × List StreamObj)) (req : StreamRequest),
        optStrFalsy req.rid = false →
        cache.lookup (streamCacheKey (req.rtype.getD "movie") (req.rid.getD "")
            req.season req.episode) = none →
        (get_streams fetch cache req).2.cacheMaxAge? = some 3600) := by
  refine ⟨get_metadata_hit, get_streams_hit, ?_, ?_⟩
  · intro cache req h1 h2
    rw [get_metadata_miss cache req h1 h2]
  · intro fetch cache req h1 h2
    rw [get_streams_miss fetch cache req h1 h2]

/-- Witness instantiating `cache_hit_forever` at a concrete populated
cache. -/
theorem cache_hit_forever_witness :
    get_metadata [(metaCacheKey "movie" "m1", _fetch_metadata "m1" "movie")]
        ⟨some "movie", some "m1"⟩
      = ([(metaCacheKey "movie" "m1", _fetch_metadata "m1" "movie")],
         ⟨some (_fetch_metadata "m1" "movie"), none⟩) :=
  cache_hit_forever.1 _ ⟨some "movie", some "m1"⟩ _ (by decide) (by decide)

/-- C9: with `season = None` the stream cache key is exactly
`"{type}:{id}"` — the episode argument does not contribute — so two
seasonless requests differing only in episode share one cache entry, and
once the first has populated it the second is served that entry as a
cache hit. -/
theorem stream_cache_key_ignores_episode
    (fetch : String → String → Option Int → Option Int → List StreamObj)
    (cache : List (String × List StreamObj)) (kind cid : String)
    (e₁ e₂ : Option Int)
    (hid : cid ≠ "")
    (hmiss : cache.lookup (kind ++ ":" ++ cid) = none)
    (hfetch : fetch cid kind none e₁ ≠ []) :
    streamCacheKey kind cid none e₁ = kind ++ ":" ++ cid
    ∧ streamCacheKey kind cid none e₂ = streamCacheKey kind cid none e₁
    ∧ get_streams fetch
        (get_streams fetch cache ⟨some kind, some cid, none, e₁⟩).1
        ⟨some kind, some cid, none, e₂⟩
      = ((get_streams fetch cache ⟨some kind, some cid, none, e₁⟩).1,
         ⟨fetch cid kind none e₁, none⟩) := by
  have hkey : ∀ e : Option Int, streamCacheKey kind cid none e = kind ++ ":" ++ cid := by
    intro e
    rw [streamCacheKey]
    simp
  have hfalsy : optStrFalsy (some cid) = false := by simp [optStrFalsy, hid]
  have h1 : get_streams fetch cache ⟨some kind, some cid, none, e₁⟩
      = ((streamCacheKey kind cid none e₁, fetch cid kind none e₁) :: cache,
         ⟨fetch cid kind none e₁, some 3600⟩) := by
    rw [get_streams_miss fetch cache ⟨some kind, some cid, none, e₁⟩ hfalsy
      (by simpa [hkey] using hmiss)]
    simp only [Option.getD_some]
    rw [if_pos hfetch]
  refine ⟨hkey e₁, by rw [hkey e₁, hkey e₂], ?_⟩
  rw [h1]
  simp only
  refine get_streams_hit fetch _ _ _ hfalsy ?_
  simp only [Option.getD_some]
  rw [hkey e₂, ← hkey e₁]
  exact List.lookup_cons_self

/-- Witness instantiating `stream_cache_key_ignores_episode` at concrete
episodes 1 and 2 of a seasonless request. -/
theorem stream_cache_key_witness :
    get_streams (fun _ _ _ _ => [⟨"http://u", "t", "srv"⟩])
        ((get_streams (fun _ _ _ _ => [⟨"http://u", "t", "srv"⟩]) []
            ⟨some "series", some "s1", none, some 1⟩).1)
        ⟨some "series", some "s1", none, some 2⟩
      = ((get_streams (fun _ _ _ _ => [⟨"http://u", "t", "srv"⟩]) []
            ⟨some "series", some "s1", none, some 1⟩).1,
         ⟨[⟨"http://u", "t", "srv"⟩], none⟩) :=
  (stream_cache_key_ignores_episode (fun _ _ _ _ => [⟨"http://u", "t", "srv"⟩])
    [] "series" "s1" (some 1) (some 2) (by decide) rfl (by decide)).2.2

/-- C10: the `cacheMaxAge` field is present in a handler response exactly
when the cache-miss (fetch) path produced it; a cache hit returns only the
cached value with no `cacheMaxAge` (and the early empty-id envelopes also
omit it). -/
theorem cache_max_age_only_on_miss :
    (∀ (cache : List (String × MetaObj)) (req : MetaRequest),
        ((get_metadata cache req).2.cacheMaxAge?).isSome = true
          ↔ (optStrFalsy req.rid = false
             ∧ cache.lookup (metaCacheKey (req.rtype.getD "movie")
                 (req.rid.getD "")) = none))
    ∧ (∀ (cache : List (String × MetaObj)) (req : MetaRequest) (m : MetaObj),
        optStrFalsy req.rid = false →
        cache.lookup (metaCacheKey (req.rtype.getD "movie") (req.rid.getD ""))
            = some m →
        (get_metadata cache req).2 = ⟨some m, none⟩)
    ∧ (∀ (fetch : String → String → Option Int → Option Int → List StreamObj)
          (cache : List (String × List StreamObj)) (req : StreamRequest),
        ((get_streams fetch cache req).2.cacheMaxAge?).isSome = true
          ↔ (optStrFalsy req.rid = false
             ∧ cache.lookup (streamCacheKey (req.rtype.getD "movie")
                 (req.rid.getD "") req.season req.episode) = none))
    ∧ (∀ (fetch : String → String → Option Int → Option Int → List StreamObj)
          (cache : List (String × List StreamObj)) (req : StreamRequest)
          (ss : List StreamObj),
        optStrFalsy req.rid = false →
        cache.lookup (streamCacheKey (req.rtype.getD "movie") (req.rid.getD "")
            req.season req.episode) = some ss →
        (get_streams fetch cache req).2 = ⟨ss, none⟩) := by
  refine ⟨?_, ?_, ?_, ?_⟩
  · intro cache req
    rcases e1 : optStrFalsy req.rid with _ | _
    · rcases e2 : cache.lookup (metaCacheKey (req.rtype.getD "movie")
          (req.rid.getD "")) with _ | m
      · rw [get_metadata_miss cache req e1 e2]
        simp
      · rw [get_metadata_hit cache req m e1 e2]
        simp [e2]
    · rw [get_metadata_falsy cache req e1]
      simp
  · intro cache req m h1 h2
    rw [get_metadata_hit cache req m h1 h2]
  · intro fetch cache req
    rcases e1 : optStrFalsy req.rid with _ | _
    · rcases e2 : cache.lookup (streamCacheKey (req.rtype.getD "movie")
          (req.rid.getD "") req.season req.episode) with _ | ss
      · rw [get_streams_miss fetch cache req e1 e2]
        simp
      · rw [get_streams_hit fetch cache req ss e1 e2]
        simp [e2]
    · rw [get_streams_falsy fetch cache req e1]
      simp
  · intro fetch cache req ss h1 h2
    rw [get_streams_hit fetch cache req ss h1 h2]

/-- Witness instantiating `cache_max_age_only_on_miss` at concrete hit and
miss requests. -/
theorem cache_max_age_witness :
    ((get_metadata [] ⟨some "movie", some "m2"⟩).2.cacheMaxAge?).isSome = true
    ∧ (get_streams _fetch_streams
        [(streamCacheKey "movie" "m2" none none, [⟨"http://u", "t", "srv"⟩])]
        ⟨some "movie", some "m2", none, none⟩).2
      = ⟨[⟨"http://u", "t", "srv"⟩], none⟩ :=
  ⟨(cache_max_age_only_on_miss.1 [] ⟨some "movie", some "m2"⟩).mpr
      ⟨by decide, rfl⟩,
   cache_max_age_only_on_miss.2.2.2 _fetch_streams _ ⟨some "movie", some "m2", none, none⟩
      _ (by decide) (by decide)⟩

/-! ## Scraper listing extraction (src/src/cuevana_scraper.py)

The network fetch and BeautifulSoup parsing are abstracted as a list of
markup nodes; each node records the results of the `select_one` queries
`_parse_movie_item` performs on it. -/

/-- Result of `get_text(strip=True)` on a matched element. -/
structure TextEl where
  text : String
deriving DecidableEq

/-- A matched `<a>` element; `href` is `none` when the attribute is
absent (Python `link.get('href', '')` then defaults to the empty
string). -/
structure LinkEl where
  href : Option String
deriving DecidableEq

/-- A matched `<img>` element with its `src` / `data-src` attributes. -/
structure ImgEl where
  src : Option String
  dataSrc : Option String
deriving DecidableEq

/-- A listing node as probed by `_parse_movie_item`: each field is the
result of the corresponding `select_one` call (`none` = no match). -/
structure MovieItem where
  titleEl : Option TextEl
  linkEl : Option LinkEl
  posterEl : Option ImgEl
  yearEl : Option TextEl
deriving DecidableEq

/-- `ID_PREFIX` from src/src/constants.py. -/
def ID_PREFIX_STR : String := "cuevanap_"

/-- `CUEVANA_PRO_URL` from src/src/constants.py. -/
def CUEVANA_PRO_URL : String := "https://cuevana.pro/"

/-- Simplified model of `urllib.parse.urljoin` (an external library
function) for the cases this scraper exercises — the fixed base
`https://cuevana.pro/` with a site-absolute or page-relative href; the
claims proved below do not depend on the URL arithmetic itself. -/
def urljoin (base rel : String) : String :=
  if rel.startsWith "/" then "https://cuevana.pro" ++ rel else base ++ rel

/-- The dict built by `_parse_movie_item` for a well-formed node. -/
structure ContentEntity where
  etype : String
  eid : String
  name : String
  poster : Option String
  year : String
  url : String
deriving DecidableEq

/-- Model of `CuevanaScraper._parse_movie_item` (src/src/cuevana_scraper.py
lines 189-215): `if not title or not link: return None` drops the item
when either mandatory element is missing; otherwise the entity is built,
resolving a non-`http` href against the base URL and preferring the
poster's `src` over its lazy-load `data-src`. -/
def _parse_movie_item (item : MovieItem) : Option ContentEntity :=
  match item.titleEl, item.linkEl with
  | some titleEl, some linkEl =>
    let movie_url0 := linkEl.href.getD ""
    let movie_url := if movie_url0.startsWith "http" then movie_url0
      else urljoin CUEVANA_PRO_URL movie_url0
    some
      { etype := "movie"
        eid := ID_PREFIX_STR ++ movie_url
        name := titleEl.text
        poster :=
          match item.posterEl with
          | some p => (match p.src with | some v => some v | none => p.dataSrc)
          | none => some ""
        year := match item.yearEl with | some y => y.text | none => ""
        url := movie_url }
  | _, _ => none

/-- The per-item loop of `search_movies` (src/src/cuevana_scraper.py lines
40-47) after the `[:limit]` truncation: every node is parsed, a `None`
parse (or the per-item `try/except`) only skips that node. -/
def searchLoop : List MovieItem → List ContentEntity
  | [] => []
  | item :: rest =>
    match _parse_movie_item item with
    | some movie => movie :: searchLoop rest
    | none => searchLoop rest

/-- Model of the extraction core of `CuevanaScraper.search_movies`
(src/src/cuevana_scraper.py lines 20-52): the selected nodes, truncated to
`limit`, are fed one by one to `_parse_movie_item`. -/
def search_movies_items (items : List MovieItem) (limit : Nat) : List ContentEntity :=
  searchLoop (items.take limit)

/-- An item is well-formed when both mandatory elements (title and link)
matched. -/
def itemWellFormed (item : MovieItem) : Bool :=
  item.titleEl.isSome && item.linkEl.isSome

theorem searchLoop_length (l : List MovieItem)
    (hiff : ∀ item : MovieItem,
      (_parse_movie_item item).isSome = true ↔ itemWellFormed item = true) :
    (searchLoop l).length = (l.filter itemWellFormed).length := by
  induction l with
  | nil => rfl
  | cons item rest ih =>
    rw [searchLoop]
    rcases e : _parse_movie_item item with _ | m
    · have hwf : itemWellFormed item = false := by
        rcases e2 : itemWellFormed item with _ | _
        · rfl
        · have := (hiff item).2 e2
          rw [e] at this
          simp at this
      rw [List.filter_cons_of_neg (by simp [hwf])]
      exact ih
    · have hwf : itemWellFormed item = true := by
        refine (hiff item).1 ?_
        rw [e]
        rfl
      rw [List.filter_cons_of_pos (by simp [hwf])]
      simp only [List.length_cons]
      rw [ih]

/-- C7: listing extraction keeps exactly the well-formed items: an item
missing its title or link is dropped while the rest are extracted (the
result has one entity per well-formed node within the limit), and in a
concrete five-item page with one title-less item the batch yields the four
entities of the remaining items rather than aborting. -/
theorem listing_drops_malformed :
    (∀ item : MovieItem,
      (_parse_movie_item item).isSome = true ↔ itemWellFormed item = true)
    ∧ (∀ (items : List MovieItem) (limit : Nat),
        (search_movies_items items limit).length
          = ((items.take limit).filter itemWellFormed).length)
    ∧ (search_movies_items
        [⟨some ⟨"A"⟩, some ⟨some "/a"⟩, none, none⟩,
         ⟨some ⟨"B"⟩, some ⟨some "/b"⟩, none, none⟩,
         ⟨none, some ⟨some "/c"⟩, none, none⟩,
         ⟨some ⟨"D"⟩, some ⟨some "/d"⟩, none, none⟩,
         ⟨some ⟨"E"⟩, some ⟨some "/e"⟩, none, none⟩] 20).length = 4 := by
  have hiff : ∀ item : MovieItem,
      (_parse_movie_item item).isSome = true ↔ itemWellFormed item = true := by
    intro item
    rcases item with ⟨t, l, p, y⟩
    rcases t with _ | te <;> rcases l with _ | le <;>
      simp [_parse_movie_item, itemWellFormed]
  refine ⟨hiff, ?_, by decide⟩
  intro items limit
  rw [search_movies_items, searchLoop_length _ hiff]
